import Mathlib

/-! Verification of the multi-provider OCR task-orchestration engine of the
obsidian-utils plugin. The file gives shallow embeddings of the per-backend
job queue (`BaseOcrProcessor`, src/ocr/baseProcessor.ts), the event-based
orchestrator with its result cache (`OcrProvider`, src/ocr/ocrProvider.ts,
together with `CyberPlugin.handleOcrComplete` / `hasCachedOcrResult`,
src/cyberPlugin.ts), the task-table providers (`AbstractOcrProvider` and
`ParallelOcrProvider`, src/ocr/provider.ts) and the composite provider
(`CompositeOcrProvider`, src/ocr/compositeProvider.ts), and proves or refutes
the specification's claims about them.  Asynchronous execution is modelled by
interleaving atomic segments: every mutation of plugin state happens between
two suspension points of the single-threaded event loop, so a run of the
system is a list of atomic commands applied in order to the state. -/

namespace OcrSpec

/-! ## Association-list helpers (model of the JavaScript `Map`)

A JS `Map` preserves insertion order; `set` replaces the value of an
existing key in place and appends a fresh key at the end.  We model a map
as an association list with exactly these operations. -/

def alookup {β : Type} (k : String) : List (String × β) → Option β
  | [] => none
  | (k', v) :: rest => if k' = k then some v else alookup k rest

def aset {β : Type} (k : String) (v : β) : List (String × β) → List (String × β)
  | [] => [(k, v)]
  | (k', v') :: rest => if k' = k then (k', v) :: rest else (k', v') :: aset k v rest

/-- keys of an association list, in order. -/
def akeys {β : Type} (m : List (String × β)) : List String :=
  m.map Prod.fst

theorem akeys_aset {β : Type} (k : String) (v : β) :
    ∀ m : List (String × β), akeys (aset k v m) =
      if k ∈ akeys m then akeys m else akeys m ++ [k] := by
  intro m
  induction m with
  | nil => simp [aset, akeys]
  | cons e rest ih =>
    obtain ⟨k', v'⟩ := e
    by_cases h : k' = k
    · subst h
      simp [aset, akeys]
    · have hne : ¬ k = k' := fun hk => h hk.symm
      simp only [aset, if_neg h, akeys, List.map_cons] at ih ⊢
      by_cases hmem : k ∈ rest.map Prod.fst
      · rw [if_pos hmem] at ih
        simp [List.mem_cons, hne, hmem, ih]
      · rw [if_neg hmem] at ih
        simp [List.mem_cons, hne, hmem, ih]

theorem alookup_aset_self {β : Type} (k : String) (v : β) :
    ∀ m : List (String × β), alookup k (aset k v m) = some v := by
  intro m
  induction m with
  | nil => simp [aset, alookup]
  | cons e rest ih =>
    obtain ⟨k', v'⟩ := e
    by_cases h : k' = k <;> simp [aset, alookup, h, ih]

theorem aset_nodupKeys {β : Type} (k : String) (v : β)
    (m : List (String × β)) (h : (akeys m).Nodup) : (akeys (aset k v m)).Nodup := by
  rw [akeys_aset]
  by_cases hmem : k ∈ akeys m
  · simpa [hmem] using h
  · simp only [hmem, if_false]
    simpa [List.nodup_append] using ⟨h, fun hk => hmem hk⟩

/-! ## The per-backend job queue: `BaseOcrProcessor` (src/ocr/baseProcessor.ts)

State of one processor: the FIFO `jobQueue` and the counter `activeTasks`
(fields of the class), plus ghost components recording what happened:
`running` is the list of jobs whose `_performOcr` call has been started and
has not yet settled (in start order), `startLog` and `enqueueLog` record all
started / submitted jobs in order, and `events` is everything emitted on the
processor's event emitter. -/

/-- an event emitted by a processor on its event emitter:
`ocr-progress` with status `queued`, `ocr-progress` with status
`processing`, `ocr-complete`, or `ocr-error`. -/
inductive PEvent
  | queued (fileId : String)
  | processing (fileId : String)
  | complete (fileId : String) (extractedText : String)
  | ocrError (fileId : String) (msg : String)
deriving DecidableEq, Repr

structure ProcState where
  jobQueue : List String
  activeTasks : Nat
  running : List String
  startLog : List String
  enqueueLog : List String
  events : List PEvent
deriving DecidableEq, Repr

def ProcState.init : ProcState := ⟨[], 0, [], [], [], []⟩

/-- the admission loop of `_tryProcessNext` (baseProcessor.ts:51-57):
`while (activeTasks < maxConcurrency && jobQueue.length > 0)` shift the
head of the queue and start it.  Returns the new `activeTasks` counter, the
remaining queue, and the jobs started, in order. -/
def drainQueue (limit : Nat) : Nat → List String → Nat × List String × List String
  | active, [] => (active, [], [])
  | active, j :: rest =>
    if active < limit then
      let r := drainQueue limit (active + 1) rest
      (r.1, r.2.1, j :: r.2.2)
    else (active, j :: rest, [])

/-- model of `_tryProcessNext` (baseProcessor.ts:45-84): run the admission loop; each
started job gets a `processing` progress event (line 57) before its
`_performOcr` call is issued. -/
def tryProcessNext (limit : Nat) (s : ProcState) : ProcState :=
  let r := drainQueue limit s.activeTasks s.jobQueue
  { s with
      jobQueue := r.2.1
      activeTasks := r.1
      running := s.running ++ r.2.2
      startLog := s.startLog ++ r.2.2
      events := s.events ++ r.2.2.map PEvent.processing }

/-- the backend capability (`_performOcr`), as a function from the job's
file id to extracted text or a recognition failure. -/
abbrev OcrOracle := String → Except String String

/-- atomic commands on one processor: `submit` is a `processImage` call
(baseProcessor.ts:30-41); `settle` is the resolution or rejection of the
in-flight `_performOcr` promise for the given job, running the async
completion body (baseProcessor.ts:59-82). -/
inductive PCmd
  | submit (fileId : String)
  | settle (fileId : String)
deriving DecidableEq, Repr

/-- the terminal event the completion body emits for a settled job:
`ocr-complete` with the extracted text (baseProcessor.ts:64-68) if
`_performOcr` resolved, `ocr-error` (baseProcessor.ts:71-76) if it
rejected. -/
def terminalEvent (oracle : OcrOracle) (j : String) : PEvent :=
  match oracle j with
  | .ok t => .complete j t
  | .error e => .ocrError j e

/-- one atomic step of a processor.  `submit j`: push the job, emit the
`queued` progress event (line 39), run `_tryProcessNext`.  `settle j`
(guarded on `j` actually being in flight, since only a started
`_performOcr` can settle, and it settles exactly once): emit the terminal
event, then the `finally` block decrements `activeTasks` and re-runs
`_tryProcessNext` (baseProcessor.ts:77-81). -/
def pstep (limit : Nat) (oracle : OcrOracle) (s : ProcState) : PCmd → ProcState
  | .submit j =>
    tryProcessNext limit
      { s with
          jobQueue := s.jobQueue ++ [j]
          enqueueLog := s.enqueueLog ++ [j]
          events := s.events ++ [.queued j] }
  | .settle j =>
    if j ∈ s.running then
      tryProcessNext limit
        { s with
            running := s.running.erase j
            activeTasks := s.activeTasks - 1
            events := s.events ++ [terminalEvent oracle j] }
    else s

/-- a run of one processor from its initial state. -/
def prun (limit : Nat) (oracle : OcrOracle) (cs : List PCmd) : ProcState :=
  cs.foldl (pstep limit oracle) ProcState.init

/-- state invariant of a processor: the counter matches the number of
in-flight recognitions, never exceeds the concurrency limit, the started
jobs followed by the still-queued jobs are exactly the submitted jobs in
submission order, and a non-empty queue means all slots are taken. -/
def ProcInv (limit : Nat) (s : ProcState) : Prop :=
  s.activeTasks = s.running.length ∧
  s.activeTasks ≤ limit ∧
  s.startLog ++ s.jobQueue = s.enqueueLog ∧
  (s.jobQueue ≠ [] → limit ≤ s.activeTasks)

theorem drainQueue_spec (limit : Nat) :
    ∀ (q : List String) (a : Nat),
      (drainQueue limit a q).1 = a + (drainQueue limit a q).2.2.length ∧
      (drainQueue limit a q).2.2 ++ (drainQueue limit a q).2.1 = q ∧
      (a ≤ limit → (drainQueue limit a q).1 ≤ limit) ∧
      ((drainQueue limit a q).2.1 ≠ [] → limit ≤ (drainQueue limit a q).1) := by
  intro q
  induction q with
  | nil => intro a; simp [drainQueue]
  | cons j rest ih =>
    intro a
    by_cases h : a < limit
    · obtain ⟨i1, i2, i3, i4⟩ := ih (a + 1)
      simp only [drainQueue, if_pos h]
      refine ⟨?_, by simp [i2], fun _ => i3 (by omega), fun hne => i4 hne⟩
      simp only [List.length_cons]
      omega
    · simp only [drainQueue, if_neg h]
      exact ⟨by simp, rfl, fun ha => ha, fun _ => by omega⟩

theorem tryProcessNext_inv (limit : Nat) (s : ProcState)
    (h1 : s.activeTasks = s.running.length)
    (h2 : s.activeTasks ≤ limit)
    (h3 : s.startLog ++ s.jobQueue = s.enqueueLog) :
    ProcInv limit (tryProcessNext limit s) := by
  have hd := drainQueue_spec limit s.jobQueue s.activeTasks
  refine ⟨?_, ?_, ?_, ?_⟩
  · simp only [tryProcessNext]
    rw [hd.1, List.length_append, h1]
  · simp only [tryProcessNext]
    exact hd.2.2.1 h2
  · simp only [tryProcessNext]
    rw [List.append_assoc, hd.2.1, h3]
  · simp only [tryProcessNext]
    exact hd.2.2.2

theorem pstep_inv (limit : Nat) (oracle : OcrOracle) (s : ProcState) (c : PCmd)
    (h : ProcInv limit s) : ProcInv limit (pstep limit oracle s c) := by
  obtain ⟨h1, h2, h3, h4⟩ := h
  cases c with
  | submit j =>
    refine tryProcessNext_inv limit _ h1 h2 ?_
    show s.startLog ++ (s.jobQueue ++ [j]) = s.enqueueLog ++ [j]
    rw [← List.append_assoc, h3]
  | settle j =>
    by_cases hj : j ∈ s.running
    · simp only [pstep, if_pos hj]
      have hlen : (s.running.erase j).length = s.running.length - 1 :=
        List.length_erase_of_mem hj
      refine tryProcessNext_inv limit _ ?_ ?_ h3
      · show s.activeTasks - 1 = (s.running.erase j).length
        rw [hlen, h1]
      · show s.activeTasks - 1 ≤ limit
        omega
    · simp only [pstep, if_neg hj]
      exact ⟨h1, h2, h3, h4⟩

theorem foldl_inv {σ γ : Type} (f : σ → γ → σ) (P : σ → Prop)
    (hstep : ∀ s c, P s → P (f s c)) :
    ∀ (cs : List γ) (s : σ), P s → P (cs.foldl f s) := by
  intro cs
  induction cs with
  | nil => intro s hs; exact hs
  | cons c rest ih => intro s hs; exact ih (f s c) (hstep s c hs)

theorem prun_inv (limit : Nat) (oracle : OcrOracle) (cs : List PCmd) :
    ProcInv limit (prun limit oracle cs) := by
  refine foldl_inv _ (ProcInv limit) (pstep_inv limit oracle) cs ProcState.init ?_
  refine ⟨rfl, Nat.zero_le _, rfl, fun h => absurd rfl h⟩

theorem drainQueue_at_capacity (limit a : Nat) (q : List String)
    (h : ¬ a < limit) : drainQueue limit a q = (a, q, []) := by
  cases q with
  | nil => rfl
  | cons j rest => simp [drainQueue, if_neg h]

theorem tryProcessNext_at_capacity (limit : Nat) (s : ProcState)
    (h : ¬ s.activeTasks < limit) : tryProcessNext limit s = s := by
  simp [tryProcessNext, drainQueue_at_capacity limit s.activeTasks s.jobQueue h]

/-- a sample backend capability that always succeeds with empty text; used
by the concrete witness runs. -/
def oracleOk : OcrOracle := fun _ => .ok ""

/-- C2: for every backend and every interleaving of submissions and
settlements, the number of simultaneously running recognitions
(`running.length`, equivalently the `activeTasks` counter) never exceeds
the configured concurrency limit `m` (the constructor clamps it to
`max 1 m`, baseProcessor.ts:21, which equals `m` whenever `m ≥ 1`); and a
job submitted while the limit is reached is appended to the tail of
`jobQueue` with only its `queued` event emitted — nothing is started. -/
theorem claim_C2_concurrency_bound (m : Nat) (hm : 1 ≤ m) (oracle : OcrOracle)
    (cs : List PCmd) (j : String) :
    (prun (max 1 m) oracle cs).running.length ≤ m ∧
    (prun (max 1 m) oracle cs).activeTasks ≤ m ∧
    ((prun (max 1 m) oracle cs).activeTasks = m →
      pstep (max 1 m) oracle (prun (max 1 m) oracle cs) (.submit j) =
        { prun (max 1 m) oracle cs with
            jobQueue := (prun (max 1 m) oracle cs).jobQueue ++ [j]
            enqueueLog := (prun (max 1 m) oracle cs).enqueueLog ++ [j]
            events := (prun (max 1 m) oracle cs).events ++ [.queued j] }) := by
  have hmax : max 1 m = m := Nat.max_eq_right hm
  obtain ⟨h1, h2, h3, h4⟩ := prun_inv (max 1 m) oracle cs
  replace h2 := h2.trans (le_of_eq hmax)
  refine ⟨h1 ▸ h2, h2, fun hfull => ?_⟩
  show tryProcessNext (max 1 m) _ = _
  apply tryProcessNext_at_capacity
  show ¬ (prun (max 1 m) oracle cs).activeTasks < max 1 m
  omega

/-- witness for C2 at concrete inputs: limit 2, three submissions. -/
theorem claim_C2_concurrency_bound_witness :
    (prun (max 1 2) oracleOk [.submit "a", .submit "b", .submit "c"]).running.length ≤ 2 ∧
    (prun (max 1 2) oracleOk [.submit "a", .submit "b", .submit "c"]).activeTasks ≤ 2 ∧
    ((prun (max 1 2) oracleOk [.submit "a", .submit "b", .submit "c"]).activeTasks = 2 →
      pstep (max 1 2) oracleOk
          (prun (max 1 2) oracleOk [.submit "a", .submit "b", .submit "c"]) (.submit "d") =
        { prun (max 1 2) oracleOk [.submit "a", .submit "b", .submit "c"] with
            jobQueue := (prun (max 1 2) oracleOk
              [.submit "a", .submit "b", .submit "c"]).jobQueue ++ ["d"]
            enqueueLog := (prun (max 1 2) oracleOk
              [.submit "a", .submit "b", .submit "c"]).enqueueLog ++ ["d"]
            events := (prun (max 1 2) oracleOk
              [.submit "a", .submit "b", .submit "c"]).events ++ [.queued "d"] }) :=
  claim_C2_concurrency_bound 2 (by decide) oracleOk [.submit "a", .submit "b", .submit "c"] "d"

/-- in a reachable processor state, settling an in-flight unit while the
queue is non-empty admits exactly the head of the queue, from the
completion callback's `_tryProcessNext` re-run. -/
theorem settle_admits_head (limit : Nat) (oracle : OcrOracle) (cs : List PCmd)
    (j q : String) (rest : List String)
    (hj : j ∈ (prun limit oracle cs).running)
    (hq : (prun limit oracle cs).jobQueue = q :: rest) :
    (pstep limit oracle (prun limit oracle cs) (.settle j)).startLog =
        (prun limit oracle cs).startLog ++ [q] ∧
      (pstep limit oracle (prun limit oracle cs) (.settle j)).jobQueue = rest := by
  obtain ⟨h1, h2, h3, h4⟩ := prun_inv limit oracle cs
  have hfull : limit ≤ (prun limit oracle cs).activeTasks := h4 (by rw [hq]; simp)
  have hpos : 1 ≤ (prun limit oracle cs).running.length :=
    List.length_pos.mpr (List.ne_nil_of_mem hj)
  have hact : (prun limit oracle cs).activeTasks = limit := by omega
  have hlim : 1 ≤ limit := by omega
  simp only [pstep, if_pos hj]
  have hdrain :
      drainQueue limit ((prun limit oracle cs).activeTasks - 1)
          ((prun limit oracle cs).jobQueue) = (limit, rest, [q]) := by
    rw [hq, hact]
    have hlt : limit - 1 < limit := by omega
    simp only [drainQueue, if_pos hlt]
    rw [show limit - 1 + 1 = limit by omega,
      drainQueue_at_capacity limit limit rest (by omega)]
  constructor
  · show (prun limit oracle cs).startLog ++ (drainQueue limit _ _).2.2 = _
    rw [hdrain]
  · show (drainQueue limit _ _).2.1 = rest
    rw [hdrain]

/-- C5: FIFO admission.  In every reachable processor state the started
jobs followed by the still-queued jobs are exactly the submitted jobs in
submission order (so jobs are started first-submitted-first, with no
reordering), and when a unit settles (completes or fails) while the queue
is non-empty, exactly the head of the queue is admitted, from the
completion callback's `_tryProcessNext` re-run. -/
theorem claim_C5_fifo_admission (limit : Nat) (oracle : OcrOracle) (cs : List PCmd)
    (j q : String) (rest : List String) :
    ((prun limit oracle cs).startLog ++ (prun limit oracle cs).jobQueue =
       (prun limit oracle cs).enqueueLog) ∧
    (j ∈ (prun limit oracle cs).running →
      (prun limit oracle cs).jobQueue = q :: rest →
      (pstep limit oracle (prun limit oracle cs) (.settle j)).startLog =
          (prun limit oracle cs).startLog ++ [q] ∧
        (pstep limit oracle (prun limit oracle cs) (.settle j)).jobQueue = rest) :=
  ⟨(prun_inv limit oracle cs).2.2.1,
    fun hj hq => settle_admits_head limit oracle cs j q rest hj hq⟩

/-- witness for C5 at concrete inputs: limit 1, two submissions, first
settles and the second (queue head) is admitted. -/
theorem claim_C5_fifo_admission_witness :
    ("a" ∈ (prun 1 oracleOk [.submit "a", .submit "b"]).running) ∧
    (prun 1 oracleOk [.submit "a", .submit "b"]).jobQueue = ["b"] ∧
    ((pstep 1 oracleOk (prun 1 oracleOk [.submit "a", .submit "b"]) (.settle "a")).startLog =
        (prun 1 oracleOk [.submit "a", .submit "b"]).startLog ++ ["b"] ∧
      (pstep 1 oracleOk (prun 1 oracleOk [.submit "a", .submit "b"]) (.settle "a")).jobQueue =
        ([] : List String)) :=
  ⟨by decide, by decide,
    (claim_C5_fifo_admission 1 oracleOk [.submit "a", .submit "b"] "a" "b" []).2
      (by decide) (by decide)⟩

/-! ## Running a backend to quiescence

For the error-isolation claims we run a processor until it is idle: settle
the first-started in-flight recognition, let the completion callback
re-admit from the queue, and repeat.  `isTerminal` picks out the
`ocr-complete` / `ocr-error` events from the emitted stream. -/

def isTerminal : PEvent → Bool
  | .complete _ _ => true
  | .ocrError _ _ => true
  | .queued _ => false
  | .processing _ => false

theorem isTerminal_terminalEvent (oracle : OcrOracle) (j : String) :
    isTerminal (terminalEvent oracle j) = true := by
  unfold terminalEvent
  cases oracle j <;> rfl

theorem filter_terminal_tryProcessNext (limit : Nat) (s : ProcState) :
    (tryProcessNext limit s).events.filter isTerminal = s.events.filter isTerminal := by
  show (s.events ++ _).filter isTerminal = _
  rw [List.filter_append]
  have : ((drainQueue limit s.activeTasks s.jobQueue).2.2.map PEvent.processing).filter
      isTerminal = [] := by
    rw [List.filter_eq_nil_iff]
    intro a ha
    obtain ⟨x, _, rfl⟩ := List.mem_map.mp ha
    simp [isTerminal]
  rw [this, List.append_nil]

/-- settle every in-flight recognition, first-started first, re-running the
admission loop after each settlement, until the backend is idle; `fuel`
bounds the number of unfinished jobs. -/
def settleAll (limit : Nat) (oracle : OcrOracle) : Nat → ProcState → ProcState
  | 0, s => s
  | fuel + 1, s =>
    match s.running with
    | [] => s
    | j :: _ => settleAll limit oracle fuel (pstep limit oracle s (.settle j))

/-- run a backend until every submitted unit has settled. -/
def quiesce (limit : Nat) (oracle : OcrOracle) (s : ProcState) : ProcState :=
  settleAll limit oracle (s.running.length + s.jobQueue.length) s

theorem settleAll_spec (limit : Nat) (oracle : OcrOracle) (hlim : 1 ≤ limit) :
    ∀ (fuel : Nat) (s : ProcState), ProcInv limit s →
      s.running.length + s.jobQueue.length ≤ fuel →
      (settleAll limit oracle fuel s).running = [] ∧
      (settleAll limit oracle fuel s).jobQueue = [] ∧
      (settleAll limit oracle fuel s).events.filter isTerminal =
        s.events.filter isTerminal ++
          (s.running ++ s.jobQueue).map (terminalEvent oracle) := by
  intro fuel
  induction fuel with
  | zero =>
    intro s hinv hlen
    have hrun : s.running = [] := List.eq_nil_of_length_eq_zero (by omega)
    have hque : s.jobQueue = [] := List.eq_nil_of_length_eq_zero (by omega)
    simp [settleAll, hrun, hque]
  | succ fuel ih =>
    intro s hinv hlen
    obtain ⟨h1, h2, h3, h4⟩ := hinv
    cases hrun : s.running with
    | nil =>
      have hque : s.jobQueue = [] := by
        by_contra hne
        have := h4 hne
        rw [h1, hrun] at this
        simp at this
        omega
      simp [settleAll, hrun, hque]
    | cons j rs =>
      have hj : j ∈ s.running := by rw [hrun]; exact List.mem_cons_self j rs
      have hstep : pstep limit oracle s (.settle j) =
          tryProcessNext limit
            { s with
                running := s.running.erase j
                activeTasks := s.activeTasks - 1
                events := s.events ++ [terminalEvent oracle j] } := by
        simp only [pstep, if_pos hj]
      have herase : s.running.erase j = rs := by rw [hrun]; exact List.erase_cons_head j rs
      have hinv' : ProcInv limit (pstep limit oracle s (.settle j)) :=
        pstep_inv limit oracle s (.settle j) ⟨h1, h2, h3, h4⟩
      -- the drain step of the settlement
      set s' := ({ s with
          running := s.running.erase j
          activeTasks := s.activeTasks - 1
          events := s.events ++ [terminalEvent oracle j] } : ProcState) with hs'
      obtain ⟨d1, d2, d3, d4⟩ := drainQueue_spec limit s'.jobQueue s'.activeTasks
      have hrun' : (pstep limit oracle s (.settle j)).running =
          rs ++ (drainQueue limit s'.activeTasks s'.jobQueue).2.2 := by
        rw [hstep]
        show s'.running ++ _ = _
        rw [hs']
        simp only [herase]
      have hque' : (pstep limit oracle s (.settle j)).jobQueue =
          (drainQueue limit s'.activeTasks s'.jobQueue).2.1 := by
        rw [hstep]; rfl
      have hlen' : (pstep limit oracle s (.settle j)).running.length +
          (pstep limit oracle s (.settle j)).jobQueue.length ≤ fuel := by
        rw [hrun', hque', List.length_append]
        have hd : (drainQueue limit s'.activeTasks s'.jobQueue).2.2.length +
            (drainQueue limit s'.activeTasks s'.jobQueue).2.1.length =
            s'.jobQueue.length := by
          have := congrArg List.length d2
          rw [List.length_append] at this
          exact this
        have hsq : s'.jobQueue.length = s.jobQueue.length := rfl
        have hrl : s.running.length = rs.length + 1 := by rw [hrun]; simp
        omega
      obtain ⟨r1, r2, r3⟩ := ih (pstep limit oracle s (.settle j)) hinv' hlen'
      have hunfold : settleAll limit oracle (fuel + 1) s =
          settleAll limit oracle fuel (pstep limit oracle s (.settle j)) := by
        simp only [settleAll, hrun]
      refine ⟨by rw [hunfold]; exact r1, by rw [hunfold]; exact r2, ?_⟩
      rw [hunfold, r3]
      -- compute the terminal-event filter of the settlement step
      have hev : (pstep limit oracle s (.settle j)).events.filter isTerminal =
          s.events.filter isTerminal ++ [terminalEvent oracle j] := by
        rw [hstep, filter_terminal_tryProcessNext]
        show (s.events ++ [terminalEvent oracle j]).filter isTerminal = _
        rw [List.filter_append]
        simp [isTerminal_terminalEvent]
      rw [hev, hrun', hque']
      have hmerge : (rs ++ (drainQueue limit s'.activeTasks s'.jobQueue).2.2) ++
          (drainQueue limit s'.activeTasks s'.jobQueue).2.1 = rs ++ s.jobQueue := by
        rw [List.append_assoc, d2]
      rw [hmerge]
      simp

/-- submit a batch of files to one processor (one `processImage` call per
file, `ocrProvider.ts:121-132`) and let the backend run until idle. -/
def runBatch (limit : Nat) (oracle : OcrOracle) (files : List String) : ProcState :=
  quiesce limit oracle (prun limit oracle (files.map PCmd.submit))

theorem submits_running_eq_startLog (limit : Nat) (oracle : OcrOracle) :
    ∀ (files : List String) (s : ProcState), s.running = s.startLog →
      (List.foldl (pstep limit oracle) s (files.map PCmd.submit)).running =
        (List.foldl (pstep limit oracle) s (files.map PCmd.submit)).startLog := by
  intro files
  induction files with
  | nil => intro s hs; exact hs
  | cons f rest ih =>
    intro s hs
    simp only [List.map_cons, List.foldl_cons]
    apply ih
    show (tryProcessNext limit _).running = (tryProcessNext limit _).startLog
    simp only [tryProcessNext]
    rw [hs]

theorem submits_enqueueLog (limit : Nat) (oracle : OcrOracle) :
    ∀ (files : List String) (s : ProcState),
      (List.foldl (pstep limit oracle) s (files.map PCmd.submit)).enqueueLog =
        s.enqueueLog ++ files := by
  intro files
  induction files with
  | nil => intro s; simp
  | cons f rest ih =>
    intro s
    simp only [List.map_cons, List.foldl_cons]
    rw [ih]
    show (s.enqueueLog ++ [f]) ++ rest = _
    simp

theorem submits_filter_terminal (limit : Nat) (oracle : OcrOracle) :
    ∀ (files : List String) (s : ProcState),
      (List.foldl (pstep limit oracle) s (files.map PCmd.submit)).events.filter isTerminal =
        s.events.filter isTerminal := by
  intro files
  induction files with
  | nil => intro s; rfl
  | cons f rest ih =>
    intro s
    simp only [List.map_cons, List.foldl_cons]
    rw [ih]
    show ((tryProcessNext limit
      { s with
          jobQueue := s.jobQueue ++ [f]
          enqueueLog := s.enqueueLog ++ [f]
          events := s.events ++ [PEvent.queued f] }).events.filter isTerminal) = _
    rw [filter_terminal_tryProcessNext]
    show ((s.events ++ [PEvent.queued f]).filter isTerminal) = _
    rw [List.filter_append]
    simp [isTerminal]

/-- in a batch run, the terminal events are exactly one per submitted file,
in submission order, each matching that file's own recognition result. -/
theorem runBatch_terminal_events (limit : Nat) (oracle : OcrOracle)
    (hlim : 1 ≤ limit) (files : List String) :
    (runBatch limit oracle files).events.filter isTerminal =
      files.map (terminalEvent oracle) := by
  unfold runBatch quiesce
  set s := prun limit oracle (files.map PCmd.submit) with hs
  have hinv := prun_inv limit oracle (files.map PCmd.submit)
  obtain ⟨r1, r2, r3⟩ := settleAll_spec limit oracle hlim
    (s.running.length + s.jobQueue.length) s hinv (le_refl _)
  rw [r3]
  have hfilter : s.events.filter isTerminal = [] := by
    rw [hs]
    exact submits_filter_terminal limit oracle files ProcState.init
  have hrs : s.running = s.startLog := by
    rw [hs]
    exact submits_running_eq_startLog limit oracle files ProcState.init rfl
  have henq : s.enqueueLog = files := by
    rw [hs]
    exact submits_enqueueLog limit oracle files ProcState.init
  have hall : s.running ++ s.jobQueue = files := by
    rw [hrs, hinv.2.2.1, henq]
  rw [hfilter, hall]
  rfl

/-- C4: error isolation.  For any batch run on two independent backends A
and B (arbitrary concurrency limits, arbitrary per-unit outcomes): the
terminal events of each backend are exactly one per file, each determined
by that file's own recognition result — so a unit that fails on backend A
yields an error event for itself and only itself, every other unit on A
with a fault-free recognition still reaches its completion event, and all
units on backend B are untouched. -/
theorem claim_C4_error_isolation
    (limA limB : Nat) (hA : 1 ≤ limA) (hB : 1 ≤ limB)
    (oracleA oracleB : OcrOracle) (files : List String) :
    ((runBatch limA oracleA files).events.filter isTerminal =
       files.map (terminalEvent oracleA)) ∧
    ((runBatch limB oracleB files).events.filter isTerminal =
       files.map (terminalEvent oracleB)) ∧
    (∀ f ∈ files, ∀ t, oracleA f = .ok t →
       PEvent.complete f t ∈ (runBatch limA oracleA files).events) ∧
    (∀ f ∈ files, ∀ e, oracleA f = .error e →
       PEvent.ocrError f e ∈ (runBatch limA oracleA files).events ∧
       ∀ t, PEvent.complete f t ∉ (runBatch limA oracleA files).events) ∧
    (∀ f ∈ files, ∀ t, oracleB f = .ok t →
       PEvent.complete f t ∈ (runBatch limB oracleB files).events) := by
  have hAev := runBatch_terminal_events limA oracleA hA files
  have hBev := runBatch_terminal_events limB oracleB hB files
  have hmemA : ∀ f ∈ files, terminalEvent oracleA f ∈ (runBatch limA oracleA files).events := by
    intro f hf
    have : terminalEvent oracleA f ∈ (runBatch limA oracleA files).events.filter isTerminal := by
      rw [hAev]
      exact List.mem_map_of_mem _ hf
    exact (List.mem_filter.mp this).1
  have hmemB : ∀ f ∈ files, terminalEvent oracleB f ∈ (runBatch limB oracleB files).events := by
    intro f hf
    have : terminalEvent oracleB f ∈ (runBatch limB oracleB files).events.filter isTerminal := by
      rw [hBev]
      exact List.mem_map_of_mem _ hf
    exact (List.mem_filter.mp this).1
  refine ⟨hAev, hBev, ?_, ?_, ?_⟩
  · intro f hf t ht
    have := hmemA f hf
    rwa [terminalEvent, ht] at this
  · intro f hf e he
    constructor
    · have := hmemA f hf
      rwa [terminalEvent, he] at this
    · intro t hmem
      have hterm : PEvent.complete f t ∈
          (runBatch limA oracleA files).events.filter isTerminal :=
        List.mem_filter.mpr ⟨hmem, rfl⟩
      rw [hAev] at hterm
      obtain ⟨f', _, hf'⟩ := List.mem_map.mp hterm
      unfold terminalEvent at hf'
      cases hor : oracleA f' with
      | ok t' =>
        rw [hor] at hf'
        have hff : f' = f := by
          injection hf' with h1 _
        rw [hff, he] at hor
        exact Except.noConfusion hor
      | error e' =>
        rw [hor] at hf'
        exact PEvent.noConfusion hf'
  · intro f hf t ht
    have := hmemB f hf
    rwa [terminalEvent, ht] at this

/-- a backend capability failing exactly on file `f2`, succeeding elsewhere. -/
def oracleFail2 : OcrOracle := fun f =>
  if f = "f2" then .error "network error" else .ok "textA"

/-- witness for C4 at the specification's concrete scenario: three files,
backend A (limit 2) fails on file 2, backend B (limit 1) always succeeds. -/
theorem claim_C4_error_isolation_witness :
    PEvent.complete "f1" "textA" ∈ (runBatch 2 oracleFail2 ["f1", "f2", "f3"]).events ∧
    PEvent.ocrError "f2" "network error" ∈ (runBatch 2 oracleFail2 ["f1", "f2", "f3"]).events ∧
    PEvent.complete "f3" "textA" ∈ (runBatch 2 oracleFail2 ["f1", "f2", "f3"]).events ∧
    PEvent.complete "f2" "" ∈ (runBatch 1 oracleOk ["f1", "f2", "f3"]).events := by
  have h := claim_C4_error_isolation 2 1 (by decide) (by decide) oracleFail2 oracleOk
    ["f1", "f2", "f3"]
  exact ⟨h.2.2.1 "f1" (by decide) "textA" rfl,
    (h.2.2.2.1 "f2" (by decide) "network error" rfl).1,
    h.2.2.1 "f3" (by decide) "textA" rfl,
    h.2.2.2.2 "f2" (by decide) "" rfl⟩

/-! ## The Gemini backend's `_performOcr` (src/ocr/geminiProcessor.ts) -/

/-- the Gemini client call (`GeminiClient.imageRequest`, src/api/gemini.ts)
underlying `GeminiOcrProcessor`: the model's text response, or a failure
(network error, thrown decode error). -/
abbrev GeminiCall := String → Except String String

/-- model of `GeminiOcrProcessor._performOcr` (geminiProcessor.ts:15-25): issues
`client.imageRequest` and returns its text; any thrown error is caught,
logged with `console.error`, and the empty string is returned — the
returned promise never rejects. -/
def gemini_performOcr (client : GeminiCall) : OcrOracle := fun fileId =>
  match client fileId with
  | .ok result => .ok result
  | .error _ => .ok ""

/-- a Gemini client whose request always fails with a network error. -/
def failingGeminiCall : GeminiCall := fun _ => .error "network error"

/-- C3 counterexample: on the Gemini backend (constructed with concurrency
limit 4, geminiProcessor.ts:10), a unit whose recognition call fails with
a network error produces exactly a `queued` event, a `processing` event,
and an `ocr-complete` event with empty extracted text — a completion
event, and no error event — because `_performOcr` swallows the failure and
resolves with `""`, which the base class emits as `ocr-complete`
(baseProcessor.ts:64-68).  This refutes the claim that every failed
recognition yields an error event and not a completion event. -/
theorem claim_C3_counterexample :
    (prun (max 1 4) (gemini_performOcr failingGeminiCall)
        [.submit "img1", .settle "img1"]).events =
      [.queued "img1", .processing "img1", .complete "img1" ""] := by
  decide

/-- C3 amended: for every unit whose `_performOcr` promise actually
rejects, the backend emits an `ocr-error` event — and no new completion
event — for that unit, the failure leaves the backend in a legal state
(the step is total and preserves the processor invariant, so the backend
does not crash), and the next queued unit is still admitted; the Gemini
backend, however, catches recognition failures inside `_performOcr` and
resolves with the empty string, so its failed recognitions surface as
`ocr-complete` events with empty text instead of error events. -/
theorem claim_C3_error_event_amended (limit : Nat) (oracle : OcrOracle)
    (cs : List PCmd) (j e : String)
    (hj : j ∈ (prun limit oracle cs).running)
    (he : oracle j = .error e) :
    (PEvent.ocrError j e ∈
      (pstep limit oracle (prun limit oracle cs) (.settle j)).events) ∧
    (∀ t, PEvent.complete j t ∈
        (pstep limit oracle (prun limit oracle cs) (.settle j)).events ↔
      PEvent.complete j t ∈ (prun limit oracle cs).events) ∧
    (∀ q rest, (prun limit oracle cs).jobQueue = q :: rest →
      q ∈ (pstep limit oracle (prun limit oracle cs) (.settle j)).startLog) ∧
    ProcInv limit (pstep limit oracle (prun limit oracle cs) (.settle j)) := by
  have hterm : terminalEvent oracle j = PEvent.ocrError j e := by
    unfold terminalEvent
    rw [he]
  have hev : (pstep limit oracle (prun limit oracle cs) (.settle j)).events =
      (prun limit oracle cs).events ++ [PEvent.ocrError j e] ++
        ((drainQueue limit ((prun limit oracle cs).activeTasks - 1)
          (prun limit oracle cs).jobQueue).2.2.map PEvent.processing) := by
    simp only [pstep, if_pos hj]
    show (_ ++ [terminalEvent oracle j]) ++ _ = _
    rw [hterm]
  refine ⟨?_, ?_, ?_, pstep_inv limit oracle _ _ (prun_inv limit oracle cs)⟩
  · rw [hev]
    simp
  · intro t
    rw [hev]
    simp only [List.mem_append, List.mem_singleton, List.mem_map]
    constructor
    · rintro ((hmem | habs) | habs)
      · exact hmem
      · exact PEvent.noConfusion habs
      · obtain ⟨x, _, habs⟩ := habs
        exact PEvent.noConfusion habs
    · intro hmem
      exact Or.inl (Or.inl hmem)
  · intro q rest hq
    have := (settle_admits_head limit oracle cs j q rest hj hq).1
    rw [this]
    simp

/-- a backend capability that always rejects. -/
def oracleErr : OcrOracle := fun _ => .error "boom"

/-- witness for the amended C3 at concrete inputs: limit 1, two
submissions; the first unit's recognition rejects, its error event is
emitted and the second unit is still admitted. -/
theorem claim_C3_error_event_amended_witness :
    (PEvent.ocrError "a" "boom" ∈
      (pstep 1 oracleErr (prun 1 oracleErr [.submit "a", .submit "b"])
        (.settle "a")).events) ∧
    ("b" ∈ (pstep 1 oracleErr (prun 1 oracleErr [.submit "a", .submit "b"])
        (.settle "a")).startLog) := by
  have h := claim_C3_error_event_amended 1 oracleErr [.submit "a", .submit "b"]
    "a" "boom" (by decide) rfl
  exact ⟨h.1, h.2.2.1 "b" [] (by decide)⟩

/-! ## The orchestrator: `OcrProvider` (src/ocr/ocrProvider.ts) with the
plugin's result cache (src/cyberPlugin.ts)

The orchestrator keeps the `activeJobs` marker set; the plugin owns the
result cache `ocrCache : fileId → (processorId → indicators)` and passes
`hasCachedOcrResult` to the orchestrator as its cache checker
(cyberPlugin.ts:337-339).  The admission loop of `processAttachments` is
synchronous — every check and marker update happens before any suspension
point — while completions and errors arrive later as events from the
processors. -/

/-- the plugin's OCR result cache (`CyberPlugin.ocrCache`): a JS `Map`
from file id to a `Map` from processor id to the extracted indicators. -/
abbrev OcrCache := List (String × List (String × List String))

/-- model of `CyberPlugin.hasCachedOcrResult` (cyberPlugin.ts:343-349):
`this.ocrCache.get(fileId)?.has(processorId) ?? false`. -/
def hasCachedOcrResult (cache : OcrCache) (fileId processorId : String) : Bool :=
  match alookup fileId cache with
  | some fileCache => (alookup processorId fileCache).isSome
  | none => false

/-- the cache write of `CyberPlugin.handleOcrComplete`
(cyberPlugin.ts:375-382): create the inner map if absent
(`ocrCache.set(fileId, new Map())`), then re-read it and
`fileCache.set(processorId, indicators)`.  The absent branch is unrolled:
re-reading the key just inserted yields the fresh empty map, which the
`set` then fills. -/
def recordOcrResult (cache : OcrCache) (fileId processorId : String)
    (indicators : List String) : OcrCache :=
  match alookup fileId cache with
  | some fileCache => aset fileId (aset processorId indicators fileCache) cache
  | none => aset fileId (aset processorId indicators []) (aset fileId [] cache)

/-- events relayed on the orchestrator's public emitter, tagged with the
`(fileId, processorId)` unit they belong to. -/
inductive OEvent
  | queuedEv (fileId processorId : String)
  | completeEv (fileId processorId : String)
  | errorEv (fileId processorId : String)
deriving DecidableEq, Repr

structure OrchState where
  activeJobs : List (String × String)
  cache : OcrCache
  enqueueLog : List (String × String)
  completionLog : List (String × String)
  errorLog : List (String × String)
  events : List OEvent
deriving DecidableEq, Repr

def OrchState.init : OrchState := ⟨[], [], [], [], [], []⟩

/-- body of the inner loop of `OcrProvider.processAttachments`
(ocrProvider.ts:101-134) for one attachment and one processor: skip on a
cache hit (line 103, only a debug line runs), skip when the job id is
already active (line 107); otherwise add the active-job marker (line 111),
emit the `queued` progress event (lines 114-119) and initiate
`processor.processImage` — all of it synchronous, before any suspension
point. -/
def admitJob (s : OrchState) (f p : String) : OrchState :=
  if hasCachedOcrResult s.cache f p then s
  else if (f, p) ∈ s.activeJobs then s
  else
    { s with
        activeJobs := (f, p) :: s.activeJobs
        enqueueLog := s.enqueueLog ++ [(f, p)]
        events := s.events ++ [.queuedEv f p] }

/-- model of `OcrProvider.processAttachments` (ocrProvider.ts:94-141): for each
attachment, for each registered processor, run the admission body. -/
def processAttachments (procs : List String) (s : OrchState)
    (files : List String) : OrchState :=
  files.foldl (fun st f => procs.foldl (fun st' p => admitJob st' f p) st) s

/-- arrival of an `ocr-complete` event for a started unit: the provider's
listener deletes the active-job marker and relays the event
(ocrProvider.ts:80-85), and the plugin's `handleOcrComplete`
(cyberPlugin.ts:363-388) extracts indicators and records them in the
cache; both listeners run synchronously on the same emission.  The step is
guarded on the pair being active: a terminal event only ever comes from a
started `processImage` invocation, the orchestrator marks the pair active
at its admission, and each invocation settles exactly once. -/
def completeStep (s : OrchState) (f p : String) (inds : List String) : OrchState :=
  if (f, p) ∈ s.activeJobs then
    { s with
        activeJobs := s.activeJobs.erase (f, p)
        cache := recordOcrResult s.cache f p inds
        completionLog := s.completionLog ++ [(f, p)]
        events := s.events ++ [.completeEv f p] }
  else s

/-- arrival of an `ocr-error` event for a started unit: the provider's
listener deletes the active-job marker and relays the event
(ocrProvider.ts:86-91); the plugin's `handleOcrError` only logs
(cyberPlugin.ts:390-392), so the cache is not written. -/
def errorStep (s : OrchState) (f p : String) : OrchState :=
  if (f, p) ∈ s.activeJobs then
    { s with
        activeJobs := s.activeJobs.erase (f, p)
        errorLog := s.errorLog ++ [(f, p)]
        events := s.events ++ [.errorEv f p] }
  else s

/-- atomic orchestrator-level commands of a session: a `processAttachments`
call over the registered processors, or the arrival of a terminal event
for one unit. -/
inductive OCmd
  | process (files : List String)
  | complete (f p : String) (inds : List String)
  | ocrError (f p : String)

def ostep (procs : List String) (s : OrchState) : OCmd → OrchState
  | .process files => processAttachments procs s files
  | .complete f p inds => completeStep s f p inds
  | .ocrError f p => errorStep s f p

/-- a session: any sequence of `processAttachments` calls interleaved with
terminal events, from a fresh plugin state. -/
def orun (procs : List String) (cmds : List OCmd) : OrchState :=
  cmds.foldl (ostep procs) OrchState.init

/-! ### Cache lemmas -/

theorem alookup_aset_ne {β : Type} (k k' : String) (v : β) (hne : k ≠ k') :
    ∀ m : List (String × β), alookup k (aset k' v m) = alookup k m := by
  have hne' : ¬ k' = k := fun h => hne h.symm
  intro m
  induction m with
  | nil => simp [aset, alookup, hne']
  | cons e rest ih =>
    obtain ⟨k'', v''⟩ := e
    by_cases h : k'' = k'
    · subst h
      simp [aset, alookup, hne']
    · by_cases h2 : k'' = k
      · subst h2
        simp [aset, alookup, h]
      · simp [aset, alookup, h, h2, ih]

theorem alookup_some_mem {β : Type} (k : String) (v : β) :
    ∀ m : List (String × β), alookup k m = some v → (k, v) ∈ m := by
  intro m
  induction m with
  | nil => intro h; exact Option.noConfusion h
  | cons e rest ih =>
    obtain ⟨k', v'⟩ := e
    intro h
    by_cases hk : k' = k
    · subst hk
      rw [alookup, if_pos rfl] at h
      injection h with h
      subst h
      exact List.mem_cons_self _ _
    · rw [alookup, if_neg hk] at h
      exact List.mem_cons_of_mem _ (ih h)

theorem mem_aset {β : Type} (k : String) (v : β) :
    ∀ (m : List (String × β)) (e : String × β),
      e ∈ aset k v m → e = (k, v) ∨ e ∈ m := by
  intro m
  induction m with
  | nil => intro e he; simpa [aset] using he
  | cons hd rest ih =>
    obtain ⟨k', v'⟩ := hd
    intro e he
    by_cases h : k' = k
    · subst h
      rw [aset, if_pos rfl] at he
      rcases List.mem_cons.mp he with h1 | h1
      · exact Or.inl h1
      · exact Or.inr (List.mem_cons_of_mem _ h1)
    · rw [aset, if_neg h] at he
      rcases List.mem_cons.mp he with h1 | h1
      · exact Or.inr (h1 ▸ List.mem_cons_self _ _)
      · rcases ih e h1 with h2 | h2
        · exact Or.inl h2
        · exact Or.inr (List.mem_cons_of_mem _ h2)

/-- the cache is well-formed when the outer map and every inner map have
no duplicate keys — automatic for a JS `Map`, an invariant here. -/
def cacheWF (c : OcrCache) : Prop :=
  (akeys c).Nodup ∧ ∀ e ∈ c, (akeys e.2).Nodup

theorem cacheWF_recordOcrResult (c : OcrCache) (f p : String) (i : List String)
    (h : cacheWF c) : cacheWF (recordOcrResult c f p i) := by
  obtain ⟨houter, hinner⟩ := h
  unfold recordOcrResult
  cases hl : alookup f c with
  | some fc =>
    constructor
    · exact aset_nodupKeys f _ c houter
    · intro e he
      rcases mem_aset f _ c e he with h1 | h1
      · subst h1
        exact aset_nodupKeys p i fc (hinner (f, fc) (alookup_some_mem f fc c hl))
      · exact hinner e h1
  | none =>
    constructor
    · exact aset_nodupKeys f _ _ (aset_nodupKeys f [] c houter)
    · intro e he
      rcases mem_aset f _ _ e he with h1 | h1
      · subst h1
        exact aset_nodupKeys p i [] (by simp [akeys])
      · rcases mem_aset f [] c e h1 with h2 | h2
        · subst h2
          simp [akeys]
        · exact hinner e h2

theorem hasCached_recordOcrResult (c : OcrCache) (f' p' f p : String) (i : List String) :
    hasCachedOcrResult (recordOcrResult c f' p' i) f p = true ↔
      ((f = f' ∧ p = p') ∨ hasCachedOcrResult c f p = true) := by
  unfold recordOcrResult
  by_cases hf : f = f'
  · subst hf
    cases hl : alookup f c with
    | some fc =>
      unfold hasCachedOcrResult
      rw [alookup_aset_self, hl]
      by_cases hp : p = p'
      · subst hp
        simp [alookup_aset_self]
      · simp [alookup_aset_ne p p' i hp, hp]
    | none =>
      unfold hasCachedOcrResult
      rw [alookup_aset_self, hl]
      by_cases hp : p = p'
      · subst hp
        simp [alookup_aset_self]
      · simp [alookup_aset_ne p p' i hp, alookup, hp]
        exact fun h => hp h.symm
  · cases hl : alookup f' c with
    | some fc =>
      unfold hasCachedOcrResult
      rw [alookup_aset_ne f f' _ hf]
      simp [hf]
    | none =>
      unfold hasCachedOcrResult
      rw [alookup_aset_ne f f' _ hf, alookup_aset_ne f f' _ hf]
      simp [hf]

/-- number of entries the cache physically holds for the pair `(f, p)`,
counted across all outer bindings for `f` and all inner bindings for `p`. -/
def cachePairCount (c : OcrCache) (f p : String) : Nat :=
  ((c.filter (fun e => e.1 == f)).map
    (fun e => (e.2.filter (fun q => q.1 == p)).length)).sum

theorem filter_key_nil {β : Type} (f : String) :
    ∀ m : List (String × β), f ∉ akeys m →
      m.filter (fun e => e.1 == f) = [] := by
  intro m
  induction m with
  | nil => intro _; rfl
  | cons e rest ih =>
    intro h
    rw [akeys, List.map_cons, List.mem_cons] at h
    push_neg at h
    rw [List.filter_cons]
    have hne : (e.1 == f) = false := by
      rw [beq_eq_false_iff_ne]
      exact fun he => h.1 he.symm
    rw [hne]
    simp only [Bool.false_eq_true, if_false]
    exact ih h.2

theorem filter_key_le_one {β : Type} (f : String) :
    ∀ m : List (String × β), (akeys m).Nodup →
      (m.filter (fun e => e.1 == f)).length ≤ 1 := by
  intro m
  induction m with
  | nil => intro _; simp
  | cons e rest ih =>
    intro h
    rw [akeys, List.map_cons, List.nodup_cons] at h
    rw [List.filter_cons]
    by_cases he : (e.1 == f) = true
    · rw [he]
      have hf : f ∉ akeys rest := by
        rw [← beq_iff_eq.mp he]
        exact h.1
      rw [if_pos rfl, filter_key_nil f rest hf]
      simp
    · simp only [he, Bool.false_eq_true, if_false]
      exact ih h.2

theorem cachePairCount_le_one (c : OcrCache) (f p : String) (h : cacheWF c) :
    cachePairCount c f p ≤ 1 := by
  obtain ⟨houter, hinner⟩ := h
  unfold cachePairCount
  have hlen := filter_key_le_one f c houter
  cases hfl : c.filter (fun e => e.1 == f) with
  | nil => simp
  | cons e tail =>
    cases tail with
    | nil =>
      simp only [List.map_cons, List.map_nil, List.sum_cons, List.sum_nil, Nat.add_zero]
      have hmem : e ∈ c := by
        have : e ∈ c.filter (fun e => e.1 == f) := by
          rw [hfl]
          exact List.mem_cons_self _ _
        exact (List.mem_filter.mp this).1
      exact filter_key_le_one p e.2 (hinner e hmem)
    | cons e2 tail2 =>
      rw [hfl] at hlen
      simp at hlen

/-! ### The session invariant of the orchestrator -/

/-- occurrence count of a pair in a list of pairs. -/
def countPair (pr : String × String) (l : List (String × String)) : Nat :=
  (l.filter (fun x => x = pr)).length

theorem countPair_nil (pr : String × String) : countPair pr [] = 0 := rfl

theorem countPair_append (pr : String × String) (l1 l2 : List (String × String)) :
    countPair pr (l1 ++ l2) = countPair pr l1 + countPair pr l2 := by
  unfold countPair
  rw [List.filter_append, List.length_append]

theorem countPair_singleton_self (pr : String × String) :
    countPair pr [pr] = 1 := by
  simp [countPair]

theorem countPair_singleton_ne (pr x : String × String) (h : ¬ x = pr) :
    countPair pr [x] = 0 := by
  simp [countPair, h]

theorem countPair_eq_zero_of_not_mem (pr : String × String) :
    ∀ l : List (String × String), pr ∉ l → countPair pr l = 0 := by
  intro l
  induction l with
  | nil => intro _; rfl
  | cons a rest ih =>
    intro h
    rw [List.mem_cons] at h
    push_neg at h
    unfold countPair
    rw [List.filter_cons]
    have : (decide (a = pr)) = false := by
      rw [decide_eq_false_iff_not]
      exact fun he => h.1 he.symm
    rw [this]
    simp only [Bool.false_eq_true, if_false]
    exact ih h.2

theorem countPair_cons (pr a : String × String) (l : List (String × String)) :
    countPair pr (a :: l) = countPair pr l + (if a = pr then 1 else 0) := by
  unfold countPair
  rw [List.filter_cons]
  by_cases ha : a = pr
  · simp [ha]
  · simp [ha]

theorem countPair_le_one_of_nodup (pr : String × String) :
    ∀ l : List (String × String), l.Nodup → countPair pr l ≤ 1 := by
  intro l
  induction l with
  | nil => intro _; simp [countPair]
  | cons a rest ih =>
    intro h
    rw [List.nodup_cons] at h
    rw [countPair_cons]
    by_cases ha : a = pr
    · subst ha
      rw [countPair_eq_zero_of_not_mem a rest h.1, if_pos rfl]
    · rw [if_neg ha, Nat.add_zero]
      exact ih h.2

/-- invariant of every reachable orchestrator state: the cache is a
well-formed map; a cached pair is never simultaneously active; every pair
that completed is cached; no pair completes twice; the active-job markers
are distinct; and each pair's submissions are exactly its completions plus
its errors plus its (at most one) outstanding job. -/
def OrchInv (s : OrchState) : Prop :=
  cacheWF s.cache ∧
  (∀ f p, hasCachedOcrResult s.cache f p = true → (f, p) ∉ s.activeJobs) ∧
  (∀ pr ∈ s.completionLog, hasCachedOcrResult s.cache pr.1 pr.2 = true) ∧
  s.completionLog.Nodup ∧
  s.activeJobs.Nodup ∧
  (∀ f p : String, countPair (f, p) s.enqueueLog =
    countPair (f, p) s.completionLog + countPair (f, p) s.errorLog +
      (if (f, p) ∈ s.activeJobs then 1 else 0))

theorem admitJob_inv (s : OrchState) (f' p' : String) (h : OrchInv s) :
    OrchInv (admitJob s f' p') := by
  obtain ⟨hwf, hca, hcc, hcn, han, hcount⟩ := h
  unfold admitJob
  by_cases hc : hasCachedOcrResult s.cache f' p' = true
  · simp only [hc, if_true]
    exact ⟨hwf, hca, hcc, hcn, han, hcount⟩
  · simp only [Bool.not_eq_true] at hc
    simp only [hc, Bool.false_eq_true, if_false]
    by_cases hact : (f', p') ∈ s.activeJobs
    · simp only [hact, if_true]
      exact ⟨hwf, hca, hcc, hcn, han, hcount⟩
    · simp only [hact, if_false]
      refine ⟨hwf, ?_, hcc, hcn, ?_, ?_⟩
      · intro f p hcached
        rw [List.mem_cons]
        rintro (heq | hmem)
        · have hf : f = f' := congrArg Prod.fst heq
          have hp : p = p' := congrArg Prod.snd heq
          rw [hf, hp] at hcached
          have : hasCachedOcrResult s.cache f' p' = true := hcached
          rw [this] at hc
          exact Bool.noConfusion hc
        · exact hca f p hcached hmem
      · exact List.nodup_cons.mpr ⟨hact, han⟩
      · intro f p
        show countPair (f, p) (s.enqueueLog ++ [(f', p')]) = _
        rw [countPair_append]
        by_cases hpair : (f, p) = (f', p')
        · rw [← hpair] at hact ⊢
          rw [countPair_singleton_self, hcount f p, if_neg hact,
            if_pos (List.mem_cons_self (f, p) s.activeJobs)]
        · rw [countPair_singleton_ne _ _ (fun h => hpair h.symm), Nat.add_zero,
            hcount f p]
          have hiff : (f, p) ∈ (f', p') :: s.activeJobs ↔ (f, p) ∈ s.activeJobs := by
            rw [List.mem_cons]
            constructor
            · rintro (heq | hm)
              · exact absurd heq hpair
              · exact hm
            · exact Or.inr
          by_cases hm : (f, p) ∈ s.activeJobs
          · rw [if_pos hm, if_pos (hiff.mpr hm)]
          · rw [if_neg hm, if_neg (fun hx => hm (hiff.mp hx))]

theorem completeStep_inv (s : OrchState) (f' p' : String) (inds : List String)
    (h : OrchInv s) : OrchInv (completeStep s f' p' inds) := by
  obtain ⟨hwf, hca, hcc, hcn, han, hcount⟩ := h
  unfold completeStep
  by_cases hact : (f', p') ∈ s.activeJobs
  · simp only [hact, if_true]
    refine ⟨cacheWF_recordOcrResult s.cache f' p' inds hwf, ?_, ?_, ?_, han.erase _, ?_⟩
    · intro f p hcached
      rcases (hasCached_recordOcrResult s.cache f' p' f p inds).mp hcached with
        ⟨hf, hp⟩ | hold
      · subst hf; subst hp
        intro habs
        exact absurd ((han.mem_erase_iff).mp habs).1 (by simp)
      · intro habs
        exact hca f p hold (List.mem_of_mem_erase habs)
    · intro pr hpr
      rw [List.mem_append, List.mem_singleton] at hpr
      rcases hpr with hold | hnew
      · exact (hasCached_recordOcrResult s.cache f' p' pr.1 pr.2 inds).mpr
          (Or.inr (hcc pr hold))
      · subst hnew
        exact (hasCached_recordOcrResult s.cache f' p' f' p' inds).mpr
          (Or.inl ⟨rfl, rfl⟩)
    · rw [List.nodup_append]
      refine ⟨hcn, List.nodup_singleton _, ?_⟩
      intro pr hpr hsing
      rw [List.mem_singleton] at hsing
      rw [hsing] at hpr
      exact absurd hact (hca f' p' (hcc (f', p') hpr))
    · intro f p
      show countPair (f, p) s.enqueueLog =
        countPair (f, p) (s.completionLog ++ [(f', p')]) +
          countPair (f, p) s.errorLog + _
      rw [countPair_append]
      by_cases hpair : (f, p) = (f', p')
      · rw [← hpair] at hact ⊢
        have hnotin : (f, p) ∉ s.activeJobs.erase (f, p) := by
          intro habs
          exact absurd ((han.mem_erase_iff).mp habs).1 (by simp)
        rw [countPair_singleton_self, if_neg hnotin, hcount f p, if_pos hact]
        omega
      · have hiff : (f, p) ∈ s.activeJobs.erase (f', p') ↔ (f, p) ∈ s.activeJobs :=
          han.mem_erase_iff.trans (by simp [hpair])
        rw [countPair_singleton_ne _ _ (fun h => hpair h.symm), Nat.add_zero,
          hcount f p]
        by_cases hm : (f, p) ∈ s.activeJobs
        · rw [if_pos hm, if_pos (hiff.mpr hm)]
        · rw [if_neg hm, if_neg (fun hx => hm (hiff.mp hx))]
  · simp only [hact, if_false]
    exact ⟨hwf, hca, hcc, hcn, han, hcount⟩

theorem errorStep_inv (s : OrchState) (f' p' : String) (h : OrchInv s) :
    OrchInv (errorStep s f' p') := by
  obtain ⟨hwf, hca, hcc, hcn, han, hcount⟩ := h
  unfold errorStep
  by_cases hact : (f', p') ∈ s.activeJobs
  · simp only [hact, if_true]
    refine ⟨hwf, ?_, hcc, hcn, han.erase _, ?_⟩
    · intro f p hcached habs
      exact hca f p hcached (List.mem_of_mem_erase habs)
    · intro f p
      show countPair (f, p) s.enqueueLog =
        countPair (f, p) s.completionLog +
          countPair (f, p) (s.errorLog ++ [(f', p')]) + _
      rw [countPair_append]
      by_cases hpair : (f, p) = (f', p')
      · rw [← hpair] at hact ⊢
        have hnotin : (f, p) ∉ s.activeJobs.erase (f, p) := by
          intro habs
          exact absurd ((han.mem_erase_iff).mp habs).1 (by simp)
        rw [countPair_singleton_self, if_neg hnotin, hcount f p, if_pos hact]
        omega
      · have hiff : (f, p) ∈ s.activeJobs.erase (f', p') ↔ (f, p) ∈ s.activeJobs :=
          han.mem_erase_iff.trans (by simp [hpair])
        rw [countPair_singleton_ne _ _ (fun h => hpair h.symm), Nat.add_zero,
          hcount f p]
        by_cases hm : (f, p) ∈ s.activeJobs
        · rw [if_pos hm, if_pos (hiff.mpr hm)]
        · rw [if_neg hm, if_neg (fun hx => hm (hiff.mp hx))]
  · simp only [hact, if_false]
    exact ⟨hwf, hca, hcc, hcn, han, hcount⟩

theorem ostep_inv (procs : List String) (s : OrchState) (c : OCmd)
    (h : OrchInv s) : OrchInv (ostep procs s c) := by
  cases c with
  | process files =>
    show OrchInv (processAttachments procs s files)
    unfold processAttachments
    refine foldl_inv _ OrchInv ?_ files s h
    intro st f hst
    exact foldl_inv _ OrchInv (fun st' p hst' => admitJob_inv st' f p hst') procs st hst
  | complete f p inds => exact completeStep_inv s f p inds h
  | ocrError f p => exact errorStep_inv s f p h

theorem orun_inv (procs : List String) (cmds : List OCmd) :
    OrchInv (orun procs cmds) := by
  refine foldl_inv _ OrchInv (ostep_inv procs) cmds OrchState.init ?_
  refine ⟨⟨List.nodup_nil, fun e he => absurd he (List.not_mem_nil e)⟩,
    fun f p h => Bool.noConfusion h, fun pr hpr => absurd hpr (List.not_mem_nil pr),
    List.nodup_nil, List.nodup_nil, fun f p => rfl⟩

/-- C1: in any session — any sequence of `processAttachments` calls
interleaved with completion and error events, from a fresh state — and for
every `(fileId, processorId)` pair: the result cache physically holds at
most one entry for the pair; at most one recognition for the pair ever
reaches completion (the at-most-one-completed-recognition guarantee); and
the number of `processImage` initiations for the pair equals its
completions plus its errors plus its at-most-one outstanding active job —
so the synchronous cache check plus the active-job marker (added before
any suspension point, removed only on the pair's completion or error
event) prevent a second enqueue of an in-flight or completed pair. -/
theorem claim_C1_at_most_once (procs : List String) (cmds : List OCmd) (f p : String) :
    cachePairCount (orun procs cmds).cache f p ≤ 1 ∧
    countPair (f, p) (orun procs cmds).completionLog ≤ 1 ∧
    countPair (f, p) (orun procs cmds).enqueueLog =
      countPair (f, p) (orun procs cmds).completionLog +
        countPair (f, p) (orun procs cmds).errorLog +
        (if (f, p) ∈ (orun procs cmds).activeJobs then 1 else 0) := by
  obtain ⟨hwf, _, _, hcn, _, hcount⟩ := orun_inv procs cmds
  exact ⟨cachePairCount_le_one _ f p hwf,
    countPair_le_one_of_nodup (f, p) _ hcn, hcount f p⟩

/-! ### C6: cache hits skip a backend -/

/-- occurrence count of an event in the emitted stream. -/
def countEvent (ev : OEvent) (l : List OEvent) : Nat :=
  (l.filter (fun x => x = ev)).length

theorem countEvent_append (ev : OEvent) (l1 l2 : List OEvent) :
    countEvent ev (l1 ++ l2) = countEvent ev l1 + countEvent ev l2 := by
  unfold countEvent
  rw [List.filter_append, List.length_append]

theorem countEvent_singleton_ne (ev x : OEvent) (h : ¬ x = ev) :
    countEvent ev [x] = 0 := by
  simp [countEvent, h]

theorem admitJob_of_cached (s : OrchState) (f p : String)
    (h : hasCachedOcrResult s.cache f p = true) : admitJob s f p = s := by
  unfold admitJob
  simp [h]

theorem admitJob_of_active (s : OrchState) (f p : String)
    (h2 : (f, p) ∈ s.activeJobs) : admitJob s f p = s := by
  unfold admitJob
  by_cases h1 : hasCachedOcrResult s.cache f p = true
  · simp [h1]
  · simp only [Bool.not_eq_true] at h1
    simp [h1, h2]

theorem admitJob_of_new (s : OrchState) (f p : String)
    (h1 : hasCachedOcrResult s.cache f p = false) (h2 : (f, p) ∉ s.activeJobs) :
    admitJob s f p =
      { s with
          activeJobs := (f, p) :: s.activeJobs
          enqueueLog := s.enqueueLog ++ [(f, p)]
          events := s.events ++ [.queuedEv f p] } := by
  unfold admitJob
  simp [h1, h2]

theorem admitJob_cases (s : OrchState) (f p : String) :
    admitJob s f p = s ∨
      (hasCachedOcrResult s.cache f p = false ∧ (f, p) ∉ s.activeJobs ∧
        admitJob s f p =
          { s with
              activeJobs := (f, p) :: s.activeJobs
              enqueueLog := s.enqueueLog ++ [(f, p)]
              events := s.events ++ [.queuedEv f p] }) := by
  by_cases h1 : hasCachedOcrResult s.cache f p = true
  · exact Or.inl (admitJob_of_cached s f p h1)
  · by_cases h2 : (f, p) ∈ s.activeJobs
    · exact Or.inl (admitJob_of_active s f p h2)
    · simp only [Bool.not_eq_true] at h1
      exact Or.inr ⟨h1, h2, admitJob_of_new s f p h1 h2⟩

/-- state of the cached-skip argument for a fixed pair: the cache is
untouched by admissions, and neither the pair's enqueue count nor its
`queued`-event count changes. -/
def CachedSkip (f p : String) (cache0 : OcrCache) (c0 e0 : Nat) (st : OrchState) : Prop :=
  st.cache = cache0 ∧ countPair (f, p) st.enqueueLog = c0 ∧
    countEvent (OEvent.queuedEv f p) st.events = e0

theorem cachedSkip_step (f p : String) (cache0 : OcrCache) (c0 e0 : Nat)
    (hc : hasCachedOcrResult cache0 f p = true) (st : OrchState) (f'' p'' : String)
    (h : CachedSkip f p cache0 c0 e0 st) :
    CachedSkip f p cache0 c0 e0 (admitJob st f'' p'') := by
  obtain ⟨hcache, hcnt, hev⟩ := h
  by_cases hpair : (f'', p'') = (f, p)
  · have hf : f'' = f := congrArg Prod.fst hpair
    have hp : p'' = p := congrArg Prod.snd hpair
    subst hf; subst hp
    rw [admitJob_of_cached st f'' p'' (by rw [hcache]; exact hc)]
    exact ⟨hcache, hcnt, hev⟩
  · rcases admitJob_cases st f'' p'' with heq | ⟨_, _, heq⟩
    · rw [heq]; exact ⟨hcache, hcnt, hev⟩
    · rw [heq]
      refine ⟨hcache, ?_, ?_⟩
      · show countPair (f, p) (st.enqueueLog ++ [(f'', p'')]) = c0
        rw [countPair_append, countPair_singleton_ne _ _ hpair, Nat.add_zero, hcnt]
      · show countEvent (OEvent.queuedEv f p) (st.events ++ [.queuedEv f'' p'']) = e0
        rw [countEvent_append, countEvent_singleton_ne, Nat.add_zero, hev]
        intro habs
        injection habs with h1 h2
        exact hpair (by rw [h1, h2])

/-- state of the uncached-admission argument for a fixed pair: either the
pair has not been admitted yet (not active, enqueue count unchanged) or it
has (active, enqueue count bumped once); the cache is untouched either
way. -/
def AdmitProgress (f p : String) (cache0 : OcrCache) (c0 : Nat) (st : OrchState) : Prop :=
  st.cache = cache0 ∧
    (((f, p) ∉ st.activeJobs ∧ countPair (f, p) st.enqueueLog = c0) ∨
      ((f, p) ∈ st.activeJobs ∧ countPair (f, p) st.enqueueLog = c0 + 1))

/-- the pair has been admitted exactly once. -/
def AdmitDone (f p : String) (cache0 : OcrCache) (c0 : Nat) (st : OrchState) : Prop :=
  st.cache = cache0 ∧ (f, p) ∈ st.activeJobs ∧
    countPair (f, p) st.enqueueLog = c0 + 1

theorem admitProgress_step (f p : String) (cache0 : OcrCache) (c0 : Nat)
    (st : OrchState) (f'' p'' : String)
    (h : AdmitProgress f p cache0 c0 st) :
    AdmitProgress f p cache0 c0 (admitJob st f'' p'') := by
  obtain ⟨hcache, hdisj⟩ := h
  by_cases hpair : (f'', p'') = (f, p)
  · have hf : f'' = f := congrArg Prod.fst hpair
    have hp : p'' = p := congrArg Prod.snd hpair
    subst hf; subst hp
    rcases hdisj with ⟨hnm, hcnt⟩ | ⟨hm, hcnt⟩
    · rcases admitJob_cases st f'' p'' with heq | ⟨_, _, heq⟩
      · rw [heq]; exact ⟨hcache, Or.inl ⟨hnm, hcnt⟩⟩
      · rw [heq]
        refine ⟨hcache, Or.inr ⟨List.mem_cons_self _ _, ?_⟩⟩
        show countPair (f'', p'') (st.enqueueLog ++ [(f'', p'')]) = c0 + 1
        rw [countPair_append, countPair_singleton_self, hcnt]
    · rw [admitJob_of_active st f'' p'' hm]
      exact ⟨hcache, Or.inr ⟨hm, hcnt⟩⟩
  · rcases admitJob_cases st f'' p'' with heq | ⟨_, _, heq⟩
    · rw [heq]; exact ⟨hcache, hdisj⟩
    · rw [heq]
      have hcnt' : countPair (f, p) (st.enqueueLog ++ [(f'', p'')]) =
          countPair (f, p) st.enqueueLog := by
        rw [countPair_append, countPair_singleton_ne _ _ hpair, Nat.add_zero]
      have hmem' : (f, p) ∈ (f'', p'') :: st.activeJobs ↔ (f, p) ∈ st.activeJobs := by
        rw [List.mem_cons]
        constructor
        · rintro (heq2 | hm)
          · exact absurd heq2.symm hpair
          · exact hm
        · exact Or.inr
      rcases hdisj with ⟨hnm, hcnt⟩ | ⟨hm, hcnt⟩
      · exact ⟨hcache, Or.inl ⟨fun hx => hnm (hmem'.mp hx), by rw [hcnt']; exact hcnt⟩⟩
      · exact ⟨hcache, Or.inr ⟨hmem'.mpr hm, by rw [hcnt']; exact hcnt⟩⟩

theorem admitDone_step (f p : String) (cache0 : OcrCache) (c0 : Nat)
    (st : OrchState) (f'' p'' : String)
    (h : AdmitDone f p cache0 c0 st) :
    AdmitDone f p cache0 c0 (admitJob st f'' p'') := by
  obtain ⟨hcache, hm, hcnt⟩ := h
  by_cases hpair : (f'', p'') = (f, p)
  · have hf : f'' = f := congrArg Prod.fst hpair
    have hp : p'' = p := congrArg Prod.snd hpair
    subst hf; subst hp
    rw [admitJob_of_active st f'' p'' hm]
    exact ⟨hcache, hm, hcnt⟩
  · rcases admitJob_cases st f'' p'' with heq | ⟨_, _, heq⟩
    · rw [heq]; exact ⟨hcache, hm, hcnt⟩
    · rw [heq]
      refine ⟨hcache, List.mem_cons_of_mem _ hm, ?_⟩
      show countPair (f, p) (st.enqueueLog ++ [(f'', p'')]) = c0 + 1
      rw [countPair_append, countPair_singleton_ne _ _ hpair, Nat.add_zero, hcnt]

theorem admitProgress_done (f p : String) (cache0 : OcrCache) (c0 : Nat)
    (hnc : hasCachedOcrResult cache0 f p = false)
    (st : OrchState) (h : AdmitProgress f p cache0 c0 st) :
    AdmitDone f p cache0 c0 (admitJob st f p) := by
  obtain ⟨hcache, hdisj⟩ := h
  rcases hdisj with ⟨hnm, hcnt⟩ | ⟨hm, hcnt⟩
  · rw [admitJob_of_new st f p (by rw [hcache]; exact hnc) hnm]
    refine ⟨hcache, List.mem_cons_self _ _, ?_⟩
    show countPair (f, p) (st.enqueueLog ++ [(f, p)]) = c0 + 1
    rw [countPair_append, countPair_singleton_self, hcnt]
  · rw [admitJob_of_active st f p hm]
    exact ⟨hcache, hm, hcnt⟩

theorem inner_fold_done (f p : String) (cache0 : OcrCache) (c0 : Nat)
    (hnc : hasCachedOcrResult cache0 f p = false) :
    ∀ (procs : List String) (st : OrchState), p ∈ procs →
      AdmitProgress f p cache0 c0 st →
      AdmitDone f p cache0 c0 (procs.foldl (fun st' q => admitJob st' f q) st) := by
  intro procs
  induction procs with
  | nil => intro st hp; exact absurd hp (List.not_mem_nil p)
  | cons q rest ih =>
    intro st hp h
    rw [List.foldl_cons]
    by_cases hq : q = p
    · subst hq
      exact foldl_inv _ (AdmitDone f q cache0 c0)
        (fun s' q' h' => admitDone_step f q cache0 c0 s' f q' h') rest _
        (admitProgress_done f q cache0 c0 hnc st h)
    · have hp' : p ∈ rest := by
        rcases List.mem_cons.mp hp with h1 | h1
        · exact absurd h1.symm hq
        · exact h1
      exact ih (admitJob st f q) hp'
        (admitProgress_step f p cache0 c0 st f q h)

theorem outer_fold_done (f p : String) (cache0 : OcrCache) (c0 : Nat)
    (hnc : hasCachedOcrResult cache0 f p = false)
    (procs : List String) (hp : p ∈ procs) :
    ∀ (files : List String) (st : OrchState), f ∈ files →
      AdmitProgress f p cache0 c0 st →
      AdmitDone f p cache0 c0
        (files.foldl (fun s' f' => procs.foldl (fun s'' q => admitJob s'' f' q) s') st) := by
  intro files
  induction files with
  | nil => intro st hf; exact absurd hf (List.not_mem_nil f)
  | cons f' rest ih =>
    intro st hf h
    rw [List.foldl_cons]
    by_cases hf' : f' = f
    · subst hf'
      have hdone := inner_fold_done f' p cache0 c0 hnc procs st hp h
      exact foldl_inv _ (AdmitDone f' p cache0 c0)
        (fun s' f'' h' => foldl_inv _ _
          (fun s'' q h'' => admitDone_step f' p cache0 c0 s'' f'' q h'') procs s' h')
        rest _ hdone
    · have hf2 : f ∈ rest := by
        rcases List.mem_cons.mp hf with h1 | h1
        · exact absurd h1.symm hf'
        · exact h1
      have hprog : AdmitProgress f p cache0 c0
          (procs.foldl (fun s'' q => admitJob s'' f' q) st) :=
        foldl_inv _ _ (fun s'' q h'' => admitProgress_step f p cache0 c0 s'' f' q h'')
          procs st h
      exact ih _ hf2 hprog

/-- C6 counterexample: two `processAttachments` calls for the same file in
quick succession, with no completion in between.  After the first call the
pair `("f1", "fast")` is active but not cached; the second call is a
complete no-op — the backend `fast`, although it has no cached entry for
`f1`, does not receive the file, because the active-job marker skips it.
This refutes the claim's clause that backends without a cached entry still
receive the file. -/
theorem claim_C6_counterexample :
    hasCachedOcrResult (orun ["fast"] [.process ["f1"]]).cache "f1" "fast" = false ∧
    (orun ["fast"] [.process ["f1"], .process ["f1"]]).enqueueLog = [("f1", "fast")] ∧
    orun ["fast"] [.process ["f1"], .process ["f1"]] = orun ["fast"] [.process ["f1"]] := by
  refine ⟨rfl, rfl, rfl⟩

/-- C6 amended: if the result cache already holds an entry for the pair
when `processAttachments` is called, the file is skipped entirely for that
backend — nothing is enqueued for the pair, no `queued` event for the pair
is emitted (only a debug line runs), and the cache itself is untouched; a
backend with no cached entry for the file does receive it, unless a job
for that (file, backend) pair is already active (queued or in flight from
an earlier call), in which case it is likewise skipped. -/
theorem claim_C6_cache_skip_amended (procs files : List String) (s : OrchState)
    (f p : String) :
    (hasCachedOcrResult s.cache f p = true →
      (processAttachments procs s files).cache = s.cache ∧
      countPair (f, p) (processAttachments procs s files).enqueueLog =
        countPair (f, p) s.enqueueLog ∧
      countEvent (OEvent.queuedEv f p) (processAttachments procs s files).events =
        countEvent (OEvent.queuedEv f p) s.events) ∧
    (hasCachedOcrResult s.cache f p = false → (f, p) ∉ s.activeJobs →
      f ∈ files → p ∈ procs →
      countPair (f, p) (processAttachments procs s files).enqueueLog =
        countPair (f, p) s.enqueueLog + 1) := by
  constructor
  · intro hc
    have h := foldl_inv
      (fun st f' => procs.foldl (fun st' q => admitJob st' f' q) st)
      (CachedSkip f p s.cache (countPair (f, p) s.enqueueLog)
        (countEvent (OEvent.queuedEv f p) s.events))
      (fun st f' hst => foldl_inv _ _
        (fun st' q hst' => cachedSkip_step f p s.cache _ _ hc st' f' q hst')
        procs st hst)
      files s ⟨rfl, rfl, rfl⟩
    exact h
  · intro hnc hnm hf hp
    exact (outer_fold_done f p s.cache (countPair (f, p) s.enqueueLog) hnc procs hp
      files s hf ⟨rfl, Or.inl ⟨hnm, rfl⟩⟩).2.2

/-- a plugin state whose result cache is pre-populated with
`(f1, fast) → []` and nothing else. -/
def preCachedState : OrchState := ⟨[], [("f1", [("fast", [])])], [], [], [], []⟩

/-- witness for the amended C6 at the specification's scenario: with the
cache pre-populated with `(f1, fast) → []` and backends `fast` and `slow`
registered, a `processAttachments` call for `f1` enqueues exactly one unit
(for `slow`) and none for `fast`, emitting no `queued` event for `fast`. -/
theorem claim_C6_cache_skip_amended_witness :
    ((processAttachments ["fast", "slow"] preCachedState ["f1"]).cache =
        preCachedState.cache ∧
      countPair ("f1", "fast")
          (processAttachments ["fast", "slow"] preCachedState ["f1"]).enqueueLog =
        countPair ("f1", "fast") preCachedState.enqueueLog ∧
      countEvent (OEvent.queuedEv "f1" "fast")
          (processAttachments ["fast", "slow"] preCachedState ["f1"]).events =
        countEvent (OEvent.queuedEv "f1" "fast") preCachedState.events) ∧
    countPair ("f1", "slow")
        (processAttachments ["fast", "slow"] preCachedState ["f1"]).enqueueLog =
      countPair ("f1", "slow") preCachedState.enqueueLog + 1 :=
  ⟨(claim_C6_cache_skip_amended ["fast", "slow"] ["f1"] preCachedState "f1" "fast").1 rfl,
    (claim_C6_cache_skip_amended ["fast", "slow"] ["f1"] preCachedState "f1" "slow").2
      rfl (List.not_mem_nil _) (by decide) (by decide)⟩

/-! ## The task-table providers (src/ocr/tasks.ts, src/ocr/provider.ts,
src/ocr/compositeProvider.ts) -/

/-- status of a task, `OcrTaskStatus` (tasks.ts:6). -/
inductive OcrTaskStatus
  | pending
  | processing
  | completed
  | failed
  | cancelled
deriving DecidableEq, Repr

/-- one task, `OcrTask` (tasks.ts:11-19). -/
structure OcrTask where
  id : String
  filePath : String
  status : OcrTaskStatus
  progress : Nat
  result : Option String := none
  indicators : Option (List String) := none
  error : Option String := none
deriving DecidableEq, Repr

/-- one invocation of the `ProgressCallback` (tasks.ts:24-29). -/
structure Emission where
  overallProgress : ℚ
  completedTasks : Nat
  totalTasks : Nat
  currentTask : Option OcrTask
deriving DecidableEq, Repr

def isTerminalStatus : OcrTaskStatus → Bool
  | .completed => true
  | .failed => true
  | .cancelled => true
  | .pending => false
  | .processing => false

/-- the `overallProgress` computed by `AbstractOcrProvider.updateProgress`
(provider.ts:126-138): the equal-weight mean of the tasks' progress
values, `0` for an empty table. -/
def overallOf (tasks : List OcrTask) : ℚ :=
  if tasks.length > 0 then
    (tasks.map (fun u => (u.progress : ℚ))).sum / tasks.length
  else 0

/-- model of `AbstractOcrProvider.updateProgress` (provider.ts:123-140): sum the
tasks' progress values, count the terminal tasks, report the equal-weight
mean together with the task that changed. -/
def mkEmission (tasks : List OcrTask) (t : OcrTask) : Emission :=
  ⟨overallOf tasks,
    (tasks.filter (fun u => isTerminalStatus u.status)).length,
    tasks.length, some t⟩

/-- the cancellation loop of `AbstractOcrProvider.cancel`
(provider.ts:80-86): walk the live tasks in table order; each task whose
status is `processing` or `pending` is set to `cancelled` in place, and
`updateProgress` fires immediately, observing the partially-updated
table. -/
def cancelLoop (done : List OcrTask) : List OcrTask → List OcrTask × List Emission
  | [] => (done, [])
  | t :: rest =>
    if t.status = .processing ∨ t.status = .pending then
      ((cancelLoop (done ++ [{ t with status := OcrTaskStatus.cancelled }]) rest).1,
        mkEmission (done ++ { t with status := OcrTaskStatus.cancelled } :: rest)
            { t with status := OcrTaskStatus.cancelled } ::
          (cancelLoop (done ++ [{ t with status := OcrTaskStatus.cancelled }]) rest).2)
    else
      cancelLoop (done ++ [t]) rest

theorem cancelLoop_cons (done : List OcrTask) (t : OcrTask) (rest : List OcrTask) :
    cancelLoop done (t :: rest) =
      if t.status = .processing ∨ t.status = .pending then
        ((cancelLoop (done ++ [{ t with status := OcrTaskStatus.cancelled }]) rest).1,
          mkEmission (done ++ { t with status := OcrTaskStatus.cancelled } :: rest)
              { t with status := OcrTaskStatus.cancelled } ::
            (cancelLoop (done ++ [{ t with status := OcrTaskStatus.cancelled }]) rest).2)
      else
        cancelLoop (done ++ [t]) rest := by
  conv_lhs => unfold cancelLoop

/-- the state of one task-table provider (`AbstractOcrProvider` fields):
the live task table, whether the current `AbortController`'s signal is
aborted, and whether a processing promise is outstanding. -/
structure ProviderState where
  tasks : List OcrTask
  ctrlAborted : Bool
  processingActive : Bool
deriving DecidableEq, Repr

/-- model of `AbstractOcrProvider.cancel` (provider.ts:75-93): abort the controller
and immediately replace it with a fresh, non-aborted one; null the
processing promise; mark every processing/pending task `cancelled`,
reporting each through the progress callback; clear the task table; and
finally report `(0, 0, 0)`. -/
def providerCancel (s : ProviderState) : ProviderState × List Emission :=
  let r := cancelLoop [] s.tasks
  (⟨[], false, false⟩, r.2 ++ [⟨0, 0, 0, none⟩])

/-- the state of the composite provider (`CompositeOcrProvider` fields,
compositeProvider.ts:917-925) together with the plugin-level result cache:
the registered providers in registration order, the per-provider and
per-file aggregation maps, and the processing flag. -/
structure CompositeState where
  inners : List ProviderState
  providerProgress : List (String × (ℚ × Nat × Nat))
  fileProgress : List (String × ℚ)
  fileProviderStatus : List (String × List (String × Bool))
  processing : Bool
  cache : OcrCache
deriving DecidableEq, Repr

/-- model of `CompositeOcrProvider.cancel` (compositeProvider.ts:1124-1134): cancel
every registered provider (their reports arrive in registration order),
set `processing` to false, clear the three aggregation maps and emit the
zero progress report.  The result cache is not touched by any of it.
(The re-entrant aggregate re-emissions triggered by the inner providers'
reports mutate only the aggregation maps — which this very call clears
afterwards — and re-emit all-zero aggregates; they are elided.) -/
def compositeCancel (s : CompositeState) : CompositeState × List Emission :=
  (⟨s.inners.map (fun p => (providerCancel p).1), [], [], [], false, s.cache⟩,
    (s.inners.map (fun p => (providerCancel p).2)).flatten ++ [⟨0, 0, 0, none⟩])

theorem cancelLoop_reports (t : OcrTask)
    (ht : t.status = .processing ∨ t.status = .pending) :
    ∀ (rest done : List OcrTask), t ∈ rest →
      some { t with status := OcrTaskStatus.cancelled } ∈
        (cancelLoop done rest).2.map Emission.currentTask := by
  intro rest
  induction rest with
  | nil => intro done hmem; exact absurd hmem (List.not_mem_nil t)
  | cons u rest' ih =>
    intro done hmem
    rcases List.mem_cons.mp hmem with heq | hmem'
    · subst heq
      rw [cancelLoop_cons, if_pos ht]
      simp only [List.map_cons, mkEmission]
      exact List.mem_cons_self _ _
    · by_cases hu : u.status = .processing ∨ u.status = .pending
      · rw [cancelLoop_cons, if_pos hu]
        simp only [List.map_cons]
        exact List.mem_cons_of_mem _ (ih (done ++ [_]) hmem')
      · rw [cancelLoop_cons, if_neg hu]
        exact ih (done ++ [u]) hmem'

theorem cancelLoop_nil (done : List OcrTask) : cancelLoop done [] = (done, []) := rfl

theorem flatten_map_singleton {α β : Type} (a : β) (l : List α) :
    (l.map (fun _ => [a])).flatten = List.replicate l.length a := by
  induction l with
  | nil => rfl
  | cons x rest ih => simp [List.replicate_succ, ih]

/-- C7: `cancel()` is idempotent.  After one `compositeCancel`: every
inner task table is empty; every task that was `processing` or `pending`
has been reported with status `cancelled`; the final report is the zero
aggregate `(0, 0, 0)`; and the result cache is untouched.  Applying
`compositeCancel` a second time reproduces exactly the same state, and the
second call's reports are only the (repeated) zero aggregates — one per
registered provider plus the composite's own — with no task-level effect;
neither call removes anything from the result cache. -/
theorem claim_C7_cancel_idempotent (s : CompositeState) (inner : ProviderState)
    (t : OcrTask) :
    ((compositeCancel (compositeCancel s).1).1 = (compositeCancel s).1) ∧
    (∀ p ∈ (compositeCancel s).1.inners, p.tasks = []) ∧
    (inner ∈ s.inners → t ∈ inner.tasks →
      (t.status = .processing ∨ t.status = .pending) →
      some { t with status := OcrTaskStatus.cancelled } ∈
        (compositeCancel s).2.map Emission.currentTask) ∧
    ((compositeCancel s).2.getLast? = some ⟨0, 0, 0, none⟩) ∧
    ((compositeCancel (compositeCancel s).1).2 =
      List.replicate s.inners.length (⟨0, 0, 0, none⟩ : Emission) ++
        [⟨0, 0, 0, none⟩]) ∧
    ((compositeCancel s).1.cache = s.cache ∧
      (compositeCancel (compositeCancel s).1).1.cache = s.cache) := by
  have hconst : ∀ p : ProviderState, (providerCancel p).1 = ⟨[], false, false⟩ :=
    fun p => rfl
  have hzero : (providerCancel (⟨[], false, false⟩ : ProviderState)).2 =
      [⟨0, 0, 0, none⟩] := rfl
  refine ⟨?_, ?_, ?_, ?_, ?_, rfl, rfl⟩
  · unfold compositeCancel
    have hmm : ((fun p => (providerCancel p).1) ∘ fun p : ProviderState =>
        (providerCancel p).1) = fun p : ProviderState => (providerCancel p).1 := by
      funext p
      rfl
    simp only [List.map_map, hmm]
  · intro p hp
    simp only [compositeCancel, List.mem_map] at hp
    obtain ⟨q, _, hq⟩ := hp
    rw [← hq]
    rfl
  · intro hinner hmem ht
    have hrep := cancelLoop_reports t ht inner.tasks [] hmem
    show _ ∈ ((s.inners.map (fun p => (providerCancel p).2)).flatten ++
      [(⟨0, 0, 0, none⟩ : Emission)]).map Emission.currentTask
    rw [List.map_append]
    apply List.mem_append_left
    have hin : (providerCancel inner).2 ∈ s.inners.map (fun p => (providerCancel p).2) :=
      List.mem_map_of_mem _ hinner
    have hmem2 : some { t with status := OcrTaskStatus.cancelled } ∈
        (providerCancel inner).2.map Emission.currentTask := by
      unfold providerCancel
      simp only [List.map_append]
      exact List.mem_append_left _ hrep
    rw [List.mem_map] at hmem2 ⊢
    obtain ⟨e, he, hce⟩ := hmem2
    exact ⟨e, List.mem_flatten.mpr ⟨(providerCancel inner).2, hin, he⟩, hce⟩
  · show ((s.inners.map (fun p => (providerCancel p).2)).flatten ++
      [(⟨0, 0, 0, none⟩ : Emission)]).getLast? = _
    rw [List.getLast?_concat]
  · show ((s.inners.map _).map (fun p => (providerCancel p).2)).flatten ++ _ = _
    rw [List.map_map]
    have : ((fun p => (providerCancel p).2) ∘ fun p : ProviderState =>
        (providerCancel p).1) = fun _ => [(⟨0, 0, 0, none⟩ : Emission)] := by
      funext p
      rfl
    rw [this, flatten_map_singleton]

/-- a provider holding one processing and one completed task. -/
def innerWithTasks : ProviderState :=
  ⟨[⟨"t1", "f1", .processing, 10, none, none, none⟩,
    ⟨"t2", "f2", .completed, 100, some "txt", some [], none⟩], false, true⟩

/-- a composite with that single provider registered and one cache entry. -/
def compositeWithTasks : CompositeState :=
  ⟨[innerWithTasks], [("prov", (0, 0, 2))], [], [], true, [("f1", [("prov", [])])]⟩

/-- witness for C7 at concrete inputs: one provider with a processing and
a completed task. -/
theorem claim_C7_cancel_idempotent_witness :
    ((compositeCancel (compositeCancel compositeWithTasks).1).1 =
      (compositeCancel compositeWithTasks).1) ∧
    (∀ p ∈ (compositeCancel compositeWithTasks).1.inners, p.tasks = []) ∧
    (innerWithTasks ∈ compositeWithTasks.inners →
      (⟨"t1", "f1", .processing, 10, none, none, none⟩ : OcrTask) ∈ innerWithTasks.tasks →
      ((⟨"t1", "f1", .processing, 10, none, none, none⟩ : OcrTask).status = .processing ∨
        (⟨"t1", "f1", .processing, 10, none, none, none⟩ : OcrTask).status = .pending) →
      some { (⟨"t1", "f1", .processing, 10, none, none, none⟩ : OcrTask) with
          status := OcrTaskStatus.cancelled } ∈
        (compositeCancel compositeWithTasks).2.map Emission.currentTask) ∧
    ((compositeCancel compositeWithTasks).2.getLast? = some ⟨0, 0, 0, none⟩) ∧
    ((compositeCancel (compositeCancel compositeWithTasks).1).2 =
      List.replicate compositeWithTasks.inners.length (⟨0, 0, 0, none⟩ : Emission) ++
        [⟨0, 0, 0, none⟩]) ∧
    ((compositeCancel compositeWithTasks).1.cache = compositeWithTasks.cache ∧
      (compositeCancel (compositeCancel compositeWithTasks).1).1.cache =
        compositeWithTasks.cache) :=
  claim_C7_cancel_idempotent compositeWithTasks innerWithTasks
    ⟨"t1", "f1", .processing, 10, none, none, none⟩

/-! ## C8: `ParallelOcrProvider.processTask` (provider.ts:284-332) racing
`cancel` (provider.ts:75-93)

In the event-loop model, `processTask` runs as three atomic segments,
separated by its two `await`s: the OCR call (line 300) and the indicator
extraction (line 315).  JS task objects are shared by reference: `cancel`
mutates the very object the suspended `processTask` continuation captured
as `currentTask` (line 293), so the model keeps a heap of task objects
keyed by id; the live table `this.tasks` is the list of ids the provider
currently tracks.  `cancel` aborts the `AbortController` and immediately
replaces it with a fresh one (lines 76-77), so a continuation resuming
afterwards reads the fresh controller's `signal.aborted`, which is
`false`. -/

structure PState where
  heap : List (String × OcrTask)
  table : List String
  ctrlAborted : Bool
  emissions : List Emission
deriving DecidableEq, Repr

/-- the tasks the table currently refers to, for `updateProgress`. -/
def ptasks (s : PState) : List OcrTask :=
  s.table.filterMap (fun i => alookup i s.heap)

/-- an `updateProgress` call over the live table with `t` as the task
argument. -/
def pEmit (s : PState) (t : OcrTask) : PState :=
  { s with emissions := s.emissions ++ [mkEmission (ptasks s) t] }

/-- the admission step of `processQueue` (provider.ts:252-255): the task
turns `processing` and `updateProgress` fires. -/
def startSeg (s : PState) (id : String) : PState :=
  match alookup id s.heap with
  | none => s
  | some t =>
    if t.status = .pending then
      pEmit { s with heap := aset id { t with status := OcrTaskStatus.processing } s.heap }
        { t with status := OcrTaskStatus.processing }
    else s

/-- the entry segment of `processTask` (provider.ts:287-297): re-read the
task from the table — return if it is gone or already `cancelled` — then
set `progress := 10` and report; the continuation then suspends awaiting
`ocrProcessor`. -/
def taskEntrySeg (s : PState) (id : String) : PState :=
  if id ∈ s.table then
    match alookup id s.heap with
    | none => s
    | some t =>
      if t.status = .cancelled then s
      else
        pEmit { s with heap := aset id { t with progress := 10 } s.heap }
          { t with progress := 10 }
  else s

/-- the segment after the OCR await resolves with `text`
(provider.ts:300-312): check `this.abortController.signal.aborted` — the
CURRENT controller's flag, not the one the OCR call was started with — and
mark the captured task `cancelled` if it is set; otherwise write
`progress := 70` and the result and report, then suspend awaiting
`matchExtractor`.  The task's own status is not re-checked. -/
def ocrResumeSeg (s : PState) (id : String) (text : String) : PState :=
  match alookup id s.heap with
  | none => s
  | some t =>
    if s.ctrlAborted then
      pEmit { s with heap := aset id { t with status := OcrTaskStatus.cancelled } s.heap }
        { t with status := OcrTaskStatus.cancelled }
    else
      pEmit { s with heap := aset id { t with progress := 70, result := some text } s.heap }
        { t with progress := 70, result := some text }

/-- the segment after the extraction await resolves (provider.ts:318-321):
unconditionally write `progress := 100`, `status := completed` and the
indicators into the captured task object, and report. -/
def extractResumeSeg (s : PState) (id : String) (inds : List String) : PState :=
  match alookup id s.heap with
  | none => s
  | some t =>
    let t' : OcrTask := { t with
      progress := 100
      status := OcrTaskStatus.completed
      indicators := some inds }
    pEmit { s with heap := aset id t' s.heap } t'

/-- the cancellation loop of `AbstractOcrProvider.cancel`
(provider.ts:80-86) over the heap: each live `processing`/`pending` task
object is set to `cancelled` in place and reported. -/
def cancelHeapLoop : PState → List String → PState
  | s, [] => s
  | s, id :: rest =>
    match alookup id s.heap with
    | none => cancelHeapLoop s rest
    | some t =>
      if t.status = .processing ∨ t.status = .pending then
        cancelHeapLoop
          (pEmit { s with heap := aset id { t with status := OcrTaskStatus.cancelled } s.heap }
            { t with status := OcrTaskStatus.cancelled }) rest
      else cancelHeapLoop s rest

/-- model of `AbstractOcrProvider.cancel` (provider.ts:75-93) over the heap:
replace the controller with a fresh non-aborted one, cancel the live
tasks, clear the table, report `(0, 0, 0)`. -/
def cancelOp (s : PState) : PState :=
  let s' := cancelHeapLoop { s with ctrlAborted := false } s.table
  { s' with table := [], emissions := s'.emissions ++ [⟨0, 0, 0, none⟩] }

/-- the failing interleaving: one task; `cancel()` is called while its OCR
await is outstanding; then the OCR and the extraction resolve. -/
def c8_run0 : PState :=
  ⟨[("t1", ⟨"t1", "file1.png", .pending, 0, none, none, none⟩)], ["t1"], false, []⟩
def c8_run2 : PState := taskEntrySeg (startSeg c8_run0 "t1") "t1"
def c8_run3 : PState := cancelOp c8_run2
def c8_run5 : PState :=
  extractResumeSeg (ocrResumeSeg c8_run3 "t1" "10.0.0.1") "t1" ["10.0.0.1"]

/-- C8: the status lifecycle is NOT monotonic.  In the run above, `cancel`
marks task `t1` `cancelled` (terminal); but when the in-flight OCR then
resolves, the resumed `processTask` reads the replaced controller's
`aborted` flag (`false`), overwrites the captured task to `progress 70`
and then to `completed`, and reports the completed task through the
progress callback — a `cancelled → completed` transition.  This evaluates
the code at the failing input of the C8 report: the claim (and the code's
own intent, cf. the `status !== 'cancelled'` guard on the failure path,
provider.ts:326) is violated. -/
theorem claim_C8_cancelled_task_completed :
    (alookup "t1" c8_run3.heap).map OcrTask.status = some OcrTaskStatus.cancelled ∧
    (alookup "t1" c8_run5.heap).map OcrTask.status = some OcrTaskStatus.completed ∧
    c8_run5.emissions.getLast? = some ⟨0, 0, 0,
      some ⟨"t1", "file1.png", .completed, 100, some "10.0.0.1",
        some ["10.0.0.1"], none⟩⟩ := by
  refine ⟨rfl, rfl, rfl⟩

/-! ## C9: aggregate progress monotonicity for one batch
(`ParallelOcrProvider`, provider.ts)

A batch is a fixed set of admitted tasks (`addFiles`, provider.ts:206-222)
driven to completion with no cancellation and no further `addFiles`.  Each
task's continuation runs its mutations in program order; the interleaving
across tasks is arbitrary.  A step is guarded by the (status, progress)
pair that encodes where that task's continuation stands — a step whose
guard does not match mutates nothing (no continuation is at that point) —
and every applied mutation immediately reports the recomputed
`overallProgress`, as `updateProgress` is called after every mutation in
the source. -/

structure BatchState where
  tasks : List OcrTask
  log : List ℚ
deriving DecidableEq, Repr

/-- mutation steps of a batch, by task index: `start` is the admission of
`processQueue` (pending → processing, provider.ts:252-255); `found` is the
`progress := 10` write after the file is read (provider.ts:296-297);
`ocrDone` is the `progress := 70` write after recognition
(provider.ts:310-312); `finish` is the completion write
(provider.ts:318-321); `failTask` is the catch handler marking the task
failed with its progress untouched (provider.ts:326-329, which can fire
from any point of the processing segment). -/
inductive BStep
  | start (i : Nat)
  | found (i : Nat)
  | ocrDone (i : Nat)
  | finish (i : Nat)
  | failTask (i : Nat)
deriving DecidableEq, Repr

/-- run one guarded mutation of task `i`; when it applies, the recomputed
`overallProgress` over the (fixed-size) table is emitted. -/
def applyTask (s : BatchState) (i : Nat) (guard : OcrTask → Bool)
    (f : OcrTask → OcrTask) : BatchState :=
  match s.tasks[i]? with
  | none => s
  | some t =>
    if guard t then
      let ts' := s.tasks.set i (f t)
      ⟨ts', s.log ++ [overallOf ts']⟩
    else s

def bstep (s : BatchState) : BStep → BatchState
  | .start i => applyTask s i (fun t => t.status == OcrTaskStatus.pending)
      (fun t => { t with status := OcrTaskStatus.processing })
  | .found i => applyTask s i
      (fun t => t.status == OcrTaskStatus.processing && t.progress == 0)
      (fun t => { t with progress := 10 })
  | .ocrDone i => applyTask s i
      (fun t => t.status == OcrTaskStatus.processing && t.progress == 10)
      (fun t => { t with progress := 70 })
  | .finish i => applyTask s i
      (fun t => t.status == OcrTaskStatus.processing && t.progress == 70)
      (fun t => { t with progress := 100, status := OcrTaskStatus.completed })
  | .failTask i => applyTask s i (fun t => t.status == OcrTaskStatus.processing)
      (fun t => { t with status := OcrTaskStatus.failed })

/-- the table `addFiles` builds for a batch (provider.ts:206-216): one
`pending` task with progress `0` per file, with its generated id. -/
def initBatch (files : List (String × String)) : BatchState :=
  ⟨files.map (fun x => ⟨x.1, x.2, .pending, 0, none, none, none⟩), []⟩

theorem sum_map_set_le (g : OcrTask → ℚ) :
    ∀ (ts : List OcrTask) (i : Nat) (t t' : OcrTask), ts[i]? = some t →
      g t ≤ g t' →
      (ts.map g).sum ≤ ((ts.set i t').map g).sum := by
  intro ts
  induction ts with
  | nil =>
    intro i t t' h
    simp at h
  | cons a rest ih =>
    intro i t t' h hle
    cases i with
    | zero =>
      simp only [List.getElem?_cons_zero, Option.some.injEq] at h
      subst h
      simp only [List.set_cons_zero, List.map_cons, List.sum_cons]
      linarith
    | succ n =>
      simp only [List.getElem?_cons_succ] at h
      simp only [List.set_cons_succ, List.map_cons, List.sum_cons]
      have := ih n t t' h hle
      linarith

theorem overallOf_set_le (ts : List OcrTask) (i : Nat) (t t' : OcrTask)
    (h : ts[i]? = some t) (hle : t.progress ≤ t'.progress) :
    overallOf ts ≤ overallOf (ts.set i t') := by
  unfold overallOf
  rw [List.length_set]
  by_cases hlen : ts.length > 0
  · rw [if_pos hlen, if_pos hlen]
    have hsum := sum_map_set_le (fun u => (u.progress : ℚ)) ts i t t' h
      (show ((t.progress : ℚ)) ≤ ((t'.progress : ℚ)) from by exact_mod_cast hle)
    exact div_le_div_of_nonneg_right hsum (Nat.cast_nonneg ts.length)
  · rw [if_neg hlen, if_neg hlen]

theorem applyTask_none (s : BatchState) (i : Nat) (guard : OcrTask → Bool)
    (f : OcrTask → OcrTask) (h : s.tasks[i]? = none) :
    applyTask s i guard f = s := by
  unfold applyTask
  rw [h]

theorem applyTask_some (s : BatchState) (i : Nat) (guard : OcrTask → Bool)
    (f : OcrTask → OcrTask) (t : OcrTask) (h : s.tasks[i]? = some t) :
    applyTask s i guard f =
      if guard t = true then
        ⟨s.tasks.set i (f t), s.log ++ [overallOf (s.tasks.set i (f t))]⟩
      else s := by
  unfold applyTask
  rw [h]

/-- the invariant of a batch run: the emitted values form a non-decreasing
sequence, and the last emitted value is at most the current mean. -/
def BatchInv (s : BatchState) : Prop :=
  List.Chain' (· ≤ ·) s.log ∧
    ∀ x, s.log.getLast? = some x → x ≤ overallOf s.tasks

theorem applyTask_inv (s : BatchState) (i : Nat) (guard : OcrTask → Bool)
    (f : OcrTask → OcrTask) (hf : ∀ t, guard t = true → t.progress ≤ (f t).progress)
    (h : BatchInv s) : BatchInv (applyTask s i guard f) := by
  obtain ⟨hchain, hlast⟩ := h
  cases hget : s.tasks[i]? with
  | none =>
    rw [applyTask_none s i guard f hget]
    exact ⟨hchain, hlast⟩
  | some t =>
    rw [applyTask_some s i guard f t hget]
    by_cases hg : guard t = true
    · rw [if_pos hg]
      have hle : overallOf s.tasks ≤ overallOf (s.tasks.set i (f t)) :=
        overallOf_set_le s.tasks i t (f t) hget (hf t hg)
      constructor
      · apply List.Chain'.append hchain (List.chain'_singleton _)
        intro x hx y hy
        simp only [List.head?_cons, Option.mem_def, Option.some.injEq] at hy
        subst hy
        exact (hlast x hx).trans hle
      · intro x hx
        rw [List.getLast?_concat] at hx
        injection hx with hx
        subst hx
        exact le_refl _
    · rw [if_neg hg]
      exact ⟨hchain, hlast⟩

/-- C9: for a single batch with a fixed set of admitted tasks, driven by
any interleaving of the per-task mutation steps, the sequence of emitted
`overallProgress` values — each the equal-weight mean of the tasks'
progress values, recomputed on every task event — is non-decreasing. -/
theorem claim_C9_progress_monotone (files : List (String × String))
    (tr : List BStep) :
    List.Chain' (· ≤ ·) ((tr.foldl bstep (initBatch files)).log) := by
  have hstep : ∀ (s : BatchState) (c : BStep), BatchInv s → BatchInv (bstep s c) := by
    intro s c hs
    cases c with
    | start i =>
      exact applyTask_inv s i _ _ (fun t _ => le_refl _) hs
    | found i =>
      refine applyTask_inv s i _ _ (fun t hg => ?_) hs
      simp only [Bool.and_eq_true, beq_iff_eq] at hg
      rw [hg.2]
      exact Nat.zero_le _
    | ocrDone i =>
      refine applyTask_inv s i _ _ (fun t hg => ?_) hs
      simp only [Bool.and_eq_true, beq_iff_eq] at hg
      rw [hg.2]
      show (10 : Nat) ≤ 70
      decide
    | finish i =>
      refine applyTask_inv s i _ _ (fun t hg => ?_) hs
      simp only [Bool.and_eq_true, beq_iff_eq] at hg
      rw [hg.2]
      show (70 : Nat) ≤ 100
      decide
    | failTask i =>
      exact applyTask_inv s i _ _ (fun t _ => le_refl _) hs
  have hinit : BatchInv (initBatch files) := by
    refine ⟨List.chain'_nil, fun x hx => ?_⟩
    simp [initBatch] at hx
  exact (foldl_inv bstep BatchInv hstep tr (initBatch files) hinit).1

/-! ## C10: `CompositeOcrProvider.addProvider` (compositeProvider.ts:27-42) -/

/-- the composite's provider registry, a JS `Map` from id to provider. -/
abbrev Registry := List (String × ProviderState)

/-- model of `addProvider` (compositeProvider.ts:27-42): if `providers.has(id)`,
throw `Provider with ID "<id>" already exists` before touching anything;
otherwise wrap the provider's progress callback (irrelevant to the
registry) and `providers.set(id, provider)`. -/
def addProvider (reg : Registry) (id : String) (prov : ProviderState) :
    Except String Registry :=
  if (alookup id reg).isSome then
    Except.error ("Provider with ID \"" ++ id ++ "\" already exists")
  else
    Except.ok (aset id prov reg)

/-- model of `removeProvider` (compositeProvider.ts:49-58): `providers.delete(id)`. -/
def removeProvider (reg : Registry) (id : String) : Registry :=
  reg.filter (fun e => !(e.1 == id))

/-- registry operations a caller can perform. -/
inductive RegOp
  | add (id : String) (prov : ProviderState)
  | remove (id : String)

/-- one registry operation as the caller observes it: a thrown `add`
leaves the registry unchanged (the exception propagates before any
mutation). -/
def regStep (reg : Registry) : RegOp → Registry
  | .add id prov =>
    match addProvider reg id prov with
    | .ok r => r
    | .error _ => reg
  | .remove id => removeProvider reg id

/-- the registry after any sequence of add/remove operations from the
composite's initial empty map. -/
def regRun (ops : List RegOp) : Registry :=
  ops.foldl regStep []

theorem removeProvider_nodupKeys (reg : Registry) (id : String)
    (h : (akeys reg).Nodup) : (akeys (removeProvider reg id)).Nodup := by
  have hsub : List.Sublist (removeProvider reg id) reg := List.filter_sublist reg
  exact (hsub.map Prod.fst).nodup h

theorem regRun_nodupKeys (ops : List RegOp) : (akeys (regRun ops)).Nodup := by
  refine foldl_inv regStep (fun r => (akeys r).Nodup) ?_ ops [] List.nodup_nil
  intro r op hr
  cases op with
  | add id prov =>
    show (akeys (match addProvider r id prov with
      | .ok r' => r' | .error _ => r)).Nodup
    unfold addProvider
    by_cases hhas : (alookup id r).isSome = true
    · rw [if_pos hhas]
      exact hr
    · rw [if_neg hhas]
      exact aset_nodupKeys id prov r hr
  | remove id => exact removeProvider_nodupKeys r id hr

/-- C10: calling `addProvider` with an id that is already registered
throws (`Provider with ID "<id>" already exists`) and leaves the registry
unchanged; with a fresh id it registers the provider under that id; and in
every reachable registry the keys are distinct, so each id is bound to at
most one provider. -/
theorem claim_C10_addProvider_unique (ops : List RegOp) (id : String)
    (prov : ProviderState) :
    ((alookup id (regRun ops)).isSome = true →
      addProvider (regRun ops) id prov =
        Except.error ("Provider with ID \"" ++ id ++ "\" already exists") ∧
      regStep (regRun ops) (.add id prov) = regRun ops) ∧
    ((alookup id (regRun ops)).isSome = false →
      addProvider (regRun ops) id prov = Except.ok (aset id prov (regRun ops)) ∧
      alookup id (regStep (regRun ops) (.add id prov)) = some prov) ∧
    (akeys (regRun ops)).Nodup ∧
    ((regRun ops).filter (fun e => e.1 == id)).length ≤ 1 := by
  have hnodup := regRun_nodupKeys ops
  refine ⟨?_, ?_, hnodup, filter_key_le_one id (regRun ops) hnodup⟩
  · intro hhas
    have herr : addProvider (regRun ops) id prov =
        Except.error ("Provider with ID \"" ++ id ++ "\" already exists") := by
      unfold addProvider
      rw [if_pos hhas]
    refine ⟨herr, ?_⟩
    show (match addProvider (regRun ops) id prov with
      | .ok r' => r' | .error _ => regRun ops) = regRun ops
    rw [herr]
  · intro hhas
    have hok : addProvider (regRun ops) id prov =
        Except.ok (aset id prov (regRun ops)) := by
      unfold addProvider
      rw [if_neg (by rw [hhas]; exact Bool.false_ne_true)]
    refine ⟨hok, ?_⟩
    show alookup id (match addProvider (regRun ops) id prov with
      | .ok r' => r' | .error _ => regRun ops) = some prov
    rw [hok]
    exact alookup_aset_self id prov (regRun ops)

/-- witness for C10 at concrete inputs: after registering `"tesseract"`,
adding it again errors and changes nothing, while `"gemini"` is fresh and
gets bound. -/
theorem claim_C10_addProvider_unique_witness :
    ((alookup "tesseract" (regRun [.add "tesseract" ⟨[], false, false⟩])).isSome = true →
      addProvider (regRun [.add "tesseract" ⟨[], false, false⟩]) "tesseract"
          ⟨[], true, false⟩ =
        Except.error ("Provider with ID \"" ++ "tesseract" ++ "\" already exists") ∧
      regStep (regRun [.add "tesseract" ⟨[], false, false⟩])
          (.add "tesseract" ⟨[], true, false⟩) =
        regRun [.add "tesseract" ⟨[], false, false⟩]) ∧
    ((alookup "tesseract" (regRun [.add "tesseract" ⟨[], false, false⟩])).isSome = false →
      addProvider (regRun [.add "tesseract" ⟨[], false, false⟩]) "tesseract"
          ⟨[], true, false⟩ =
        Except.ok (aset "tesseract" ⟨[], true, false⟩
          (regRun [.add "tesseract" ⟨[], false, false⟩])) ∧
      alookup "tesseract" (regStep (regRun [.add "tesseract" ⟨[], false, false⟩])
          (.add "tesseract" ⟨[], true, false⟩)) = some ⟨[], true, false⟩) ∧
    (akeys (regRun [.add "tesseract" ⟨[], false, false⟩])).Nodup ∧
    ((regRun [.add "tesseract" ⟨[], false, false⟩]).filter
        (fun e => e.1 == "tesseract")).length ≤ 1 :=
  claim_C10_addProvider_unique [.add "tesseract" ⟨[], false, false⟩] "tesseract"
    ⟨[], true, false⟩

end OcrSpec
